import Mathlib

/-
Verification of the compact blueprint interpreter in
src/server/src/session.ts of gameknife/minecraft-agent.

The embedding models the DSL core: the block-type normalizer, the integer
expression evaluator, the scoped step interpreter with its execution
budgets, and the dual-format document dispatcher.  JavaScript numbers are
modelled as exact integers (the interpreter only ever manipulates integer
values; `Math.trunc` on an integer is the identity, and `Math.trunc(a/b)`
on integers is truncating division).  JavaScript strings are modelled as
Lean strings with explicit ASCII character operations, since the source
only manipulates ASCII identifiers.
-/

-- ===========================================================================
-- Character / string primitives used by the source
-- ===========================================================================

/-- The whitespace class used by the source's regexes and trims. -/
def isWsChar (c : Char) : Bool :=
  c = ' ' ∨ c = '\t' ∨ c = '\n' ∨ c = '\r'

/-- Digit characters, matching the tokenizer's explicit range check. -/
def isDigitChar (c : Char) : Bool :=
  '0' ≤ c ∧ c ≤ '9'

/-- The class [A-Za-z_] that may start an identifier. -/
def isIdentStartChar (c : Char) : Bool :=
  ('A' ≤ c ∧ c ≤ 'Z') ∨ ('a' ≤ c ∧ c ≤ 'z') ∨ c = '_'

/-- The class [A-Za-z0-9_] that may continue an identifier. -/
def isIdentChar (c : Char) : Bool :=
  isIdentStartChar c ∨ isDigitChar c

/-- Test for the anchored regex ^[A-Za-z_][A-Za-z0-9_]*$ . -/
def isIdentString (s : String) : Bool :=
  match s.data with
  | [] => false
  | c :: rest => isIdentStartChar c && rest.all isIdentChar

/-- Test for the anchored regex ^-?\d+$ . -/
def isNumericString (s : String) : Bool :=
  match s.data with
  | '-' :: rest => !rest.isEmpty && rest.all isDigitChar
  | cs => !cs.isEmpty && cs.all isDigitChar

/-- Numeric value of a digit run, as Number.parseInt computes it. -/
def digitsToNat (cs : List Char) : Nat :=
  cs.foldl (fun a c => a * 10 + (c.toNat - '0'.toNat)) 0

/-- Number.parseInt on a string matching ^-?\d+$ . -/
def parseIntString (s : String) : Int :=
  match s.data with
  | '-' :: rest => -(digitsToNat rest : Int)
  | cs => (digitsToNat cs : Int)

/-- ASCII lower-casing of one character (String.prototype.toLowerCase). -/
def chLower (c : Char) : Char :=
  if 'A' ≤ c ∧ c ≤ 'Z' then Char.ofNat (c.toNat + 32) else c

/-- String.prototype.toLowerCase on the ASCII strings this core handles. -/
def strLower (s : String) : String := ⟨s.data.map chLower⟩

/-- Drop leading and trailing whitespace: String.prototype.trim. -/
def trimChars (cs : List Char) : List Char :=
  ((cs.dropWhile isWsChar).reverse.dropWhile isWsChar).reverse

/-- String.prototype.trim. -/
def strTrim (s : String) : String := ⟨trimChars s.data⟩

/-- One pass of replace(/\s+/g, "_"): each maximal whitespace run becomes
one underscore.  The boolean records whether the previous character was
whitespace (i.e. we are inside a run already emitted as "_"). -/
def collapseWsChars : Bool → List Char → List Char
  | _, [] => []
  | inRun, c :: cs =>
    if isWsChar c then
      if inRun then collapseWsChars true cs
      else '_' :: collapseWsChars true cs
    else c :: collapseWsChars false cs

/-- Whitespace runs to underscores, then every hyphen to an underscore
(the source's two successive regex replaces). -/
def underscoreNormalize (s : String) : String :=
  ⟨(collapseWsChars false s.data).map (fun c => if c = '-' then '_' else c)⟩

/-- String.prototype.startsWith. -/
def strStartsWith (s pre : String) : Bool := pre.data.isPrefixOf s.data

/-- Decidable equality of Except results, so that concrete runs of the
embedded functions can be checked by decide. -/
instance {ε α : Type} [DecidableEq ε] [DecidableEq α] : DecidableEq (Except ε α) := fun x y =>
  match x, y with
  | .ok a, .ok b => if h : a = b then isTrue (by rw [h]) else isFalse (by simp [h])
  | .error a, .error b => if h : a = b then isTrue (by rw [h]) else isFalse (by simp [h])
  | .ok _, .error _ => isFalse (by simp)
  | .error _, .ok _ => isFalse (by simp)

-- ===========================================================================
-- JSON documents (the parsed model response) and scope values
-- ===========================================================================

/-- A parsed JSON value.  A missing object field ("undefined" in the
source) is represented by Option.none at use sites; null is a value. -/
inductive Json where
  | num (n : Int)
  | str (s : String)
  | bool (b : Bool)
  | null
  | arr (elems : List Json)
  | obj (fields : List (String × Json))

/-- Elements of a stringified array (String([...]) joins element strings
with commas; null elements become the empty string).  The fuel only
bounds descent into nested arrays; any document whose arrays nest fewer
than the initial fuel levels deep is stringified exactly as JS does. -/
def jsToStringFuel : Nat → Json → String
  | _, .num n => toString n
  | _, .str s => s
  | _, .bool b => if b then "true" else "false"
  | _, .null => "null"
  | _, .obj _ => "[object Object]"
  | 0, .arr _ => ""
  | f + 1, .arr xs =>
    String.intercalate "," (xs.map (fun x => match x with
      | .null => ""
      | x => jsToStringFuel f x))

/-- The JavaScript String(...) conversion on a parsed JSON value. -/
def jsToString (j : Json) : String := jsToStringFuel 4096 j

/-- Field access on a JSON object; none models "undefined". -/
def Json.get? (j : Json) (key : String) : Option Json :=
  match j with
  | .obj fields => List.lookup key fields
  | _ => none

/-- The value of `j.key ?? dflt`: the field unless missing or null. -/
def Json.fieldCoalesce (j : Json) (key : String) (dflt : Json) : Json :=
  match j.get? key with
  | none => dflt
  | some .null => dflt
  | some v => v

/-- Whether `Array.isArray(j.key)` holds. -/
def Json.hasArrayField (j : Json) (key : String) : Bool :=
  match j.get? key with
  | some (.arr _) => true
  | _ => false

/-- isRecord: a non-null non-array object. -/
def Json.isRecord : Json → Bool
  | .obj _ => true
  | _ => false

/-- A scope value is an integer or a string (type ScopeValue). -/
inductive ScopeValue where
  | int (n : Int)
  | str (s : String)
deriving DecidableEq, Repr

/-- String(...) of a scope value. -/
def ScopeValue.toStr : ScopeValue → String
  | .int n => toString n
  | .str s => s

/-- A variable scope; later (leftmost) bindings shadow earlier ones,
which models object-spread overlaying. -/
abbrev Scope := List (String × ScopeValue)

-- ===========================================================================
-- Expression tokenizer (tokenizeExpression)
-- ===========================================================================

/-- Errors thrown by tokenizeExpression / evaluateIntegerExpression. -/
inductive ParseErr where
  | emptyExpression
  | invalidChar (c : Char)
  | unexpectedEnd
  | unexpectedToken
  | missingClosingParen
  | trailingTokens
  | unknownVar (v : String)
  | nonNumericVar (v : String)
  | divisionByZero
  | badOperator
  | outOfFuel
deriving DecidableEq, Repr

/-- Expression tokens (ExprToken in the source). -/
inductive Token where
  | num (n : Nat)
  | ident (s : String)
  | op (c : Char)
  | lparen
  | rparen
deriving DecidableEq, Repr

/-- The digit/identifier run currently being scanned.  The source slices
maximal runs out of the string; scanning them character by character with
an accumulator produces the same tokens (identifier characters are kept
in reverse and flipped when the run ends). -/
inductive Run where
  | num (v : Nat)
  | ident (cs : List Char)
deriving DecidableEq, Repr

/-- Token finished by the end of the current run, if any. -/
def flushRun : Option Run → List Token
  | none => []
  | some (.num v) => [.num v]
  | some (.ident cs) => [.ident ⟨cs.reverse⟩]

/-- Main tokenizer loop; `acc` holds finished tokens in reverse. -/
def tokLoop : List Char → Option Run → List Token → Except ParseErr (List Token)
  | [], run, acc => .ok ((flushRun run ++ acc).reverse)
  | c :: cs, run, acc =>
    if isDigitChar c then
      match run with
      | some (.num v) => tokLoop cs (some (.num (v * 10 + (c.toNat - '0'.toNat)))) acc
      | some (.ident ics) => tokLoop cs (some (.ident (c :: ics))) acc
      | none => tokLoop cs (some (.num (c.toNat - '0'.toNat))) acc
    else if isIdentStartChar c then
      match run with
      | some (.ident ics) => tokLoop cs (some (.ident (c :: ics))) acc
      | r => tokLoop cs (some (.ident [c])) (flushRun r ++ acc)
    else
      let acc' := flushRun run ++ acc
      if isWsChar c then tokLoop cs none acc'
      else if c = '+' ∨ c = '-' ∨ c = '*' ∨ c = '/' then tokLoop cs none (.op c :: acc')
      else if c = '(' then tokLoop cs none (.lparen :: acc')
      else if c = ')' then tokLoop cs none (.rparen :: acc')
      else .error (.invalidChar c)

/-- tokenizeExpression: scan the characters, then reject an empty token
list ("empty expression"). -/
def tokenizeExpression (s : String) : Except ParseErr (List Token) :=
  match tokLoop s.data none [] with
  | .error e => .error e
  | .ok [] => .error .emptyExpression
  | .ok toks => .ok toks

-- ===========================================================================
-- Expression parser / evaluator (evaluateIntegerExpression, applyIntOp)
-- ===========================================================================

/-- applyIntOp: Math.trunc(left / right) on integers is truncating
division (Int.tdiv); division by zero throws. -/
def applyIntOp (l : Int) (o : Char) (r : Int) : Except ParseErr Int :=
  if o = '+' then .ok (l + r)
  else if o = '-' then .ok (l - r)
  else if o = '*' then .ok (l * r)
  else if o = '/' then
    if r = 0 then .error .divisionByZero else .ok (Int.tdiv l r)
  else .error .badOperator

/-- Which of the mutually recursive parsing procedures is running: a
factor, a term (factor then *,/ chain), the *,/ chain with its
accumulated value, an expression (term then +,- chain), or the +,- chain
with its accumulated value. -/
inductive PKind where
  | factor
  | term
  | termLoop (acc : Int)
  | expr
  | exprLoop (acc : Int)

/-- The recursive-descent parser-evaluator of evaluateIntegerExpression.
The source's parseExpression/parseTerm/parseFactor closures are modelled
as one fuel-indexed function; every nested call spends one unit of fuel,
and the top-level entry point supplies enough fuel that `outOfFuel` is
unreachable (proved below).  Each returned pair is the value and the
unconsumed tokens. -/
def parseRun (scope : Scope) : Nat → PKind → List Token → Except ParseErr (Int × List Token)
  | 0, _, _ => .error .outOfFuel
  | f + 1, .factor, toks =>
    match toks with
    | [] => .error .unexpectedEnd
    | .op c :: rest =>
      if c = '+' ∨ c = '-' then
        match parseRun scope f .factor rest with
        | .error e => .error e
        | .ok (v, r) => .ok (if c = '-' then -v else v, r)
      else .error .unexpectedToken
    | .num n :: rest => .ok ((n : Int), rest)
    | .ident s :: rest =>
      match List.lookup s scope with
      | none => .error (.unknownVar s)
      | some (.int n) => .ok (n, rest)
      | some (.str v) =>
        if isNumericString (strTrim v) then .ok (parseIntString (strTrim v), rest)
        else .error (.nonNumericVar s)
    | .lparen :: rest =>
      match parseRun scope f .expr rest with
      | .error e => .error e
      | .ok (v, .rparen :: r) => .ok (v, r)
      | .ok (_, _) => .error .missingClosingParen
    | .rparen :: _ => .error .unexpectedToken
  | f + 1, .term, toks =>
    match parseRun scope f .factor toks with
    | .error e => .error e
    | .ok (v, r) => parseRun scope f (.termLoop v) r
  | f + 1, .termLoop v, toks =>
    match toks with
    | .op c :: rest =>
      if c = '*' ∨ c = '/' then
        match parseRun scope f .factor rest with
        | .error e => .error e
        | .ok (rhs, r2) =>
          match applyIntOp v c rhs with
          | .error e => .error e
          | .ok v2 => parseRun scope f (.termLoop v2) r2
      else .ok (v, toks)
    | _ => .ok (v, toks)
  | f + 1, .expr, toks =>
    match parseRun scope f .term toks with
    | .error e => .error e
    | .ok (v, r) => parseRun scope f (.exprLoop v) r
  | f + 1, .exprLoop v, toks =>
    match toks with
    | .op c :: rest =>
      if c = '+' ∨ c = '-' then
        match parseRun scope f .term rest with
        | .error e => .error e
        | .ok (rhs, r2) =>
          match applyIntOp v c rhs with
          | .error e => .error e
          | .ok v2 => parseRun scope f (.exprLoop v2) r2
      else .ok (v, toks)
    | _ => .ok (v, toks)

/-- Fuel supplied to the parser by the evaluator; proved sufficient. -/
def parserFuel (toks : List Token) : Nat := 4 * toks.length + 4

/-- evaluateIntegerExpression: tokenize, parse an expression, and reject
trailing tokens. -/
def evaluateIntegerExpression (expr : String) (scope : Scope) : Except ParseErr Int :=
  match tokenizeExpression expr with
  | .error e => .error e
  | .ok toks =>
    match parseRun scope (parserFuel toks) .expr toks with
    | .error e => .error e
    | .ok (v, []) => .ok v
    | .ok (_, _ :: _) => .error .trailingTokens

-- ===========================================================================
-- Constants and the block-type normalizer
-- ===========================================================================

def MAX_BLOCKS : Nat := 10000

def MAX_EXECUTED_STEPS : Nat := 50000

def MAX_CALL_DEPTH : Nat := 24

def MAX_CALLS : Nat := 500

def DEFAULT_BLOCK_TYPE : String := "minecraft:stone"

/-- resolveScopedValue: a string that is a bare identifier bound in scope
resolves to the bound scope value; everything else passes through. -/
def resolveScopedValue (raw : Option Json) (scope : Scope) : Option (Json ⊕ ScopeValue) :=
  match raw with
  | some (Json.str s) =>
    let key := strTrim s
    if isIdentString key then
      match List.lookup key scope with
      | some v => some (Sum.inr v)
      | none => some (Sum.inl (Json.str s))
    else some (Sum.inl (Json.str s))
  | some j => some (Sum.inl j)
  | none => none

/-- The canonical identifier normalizeBlockType builds before the catalog
membership check: resolve through the scope, stringify (undefined and
null fall back to the default type), trim, lower-case, replace the empty
string by the default, turn whitespace runs and hyphens into underscores,
and ensure the minecraft: namespace prefix. -/
def normalizeCandidate (raw : Option Json) (scope : Scope) : String :=
  let base : String :=
    match resolveScopedValue raw scope with
    | none => DEFAULT_BLOCK_TYPE
    | some (Sum.inl Json.null) => DEFAULT_BLOCK_TYPE
    | some (Sum.inl j) => jsToString j
    | some (Sum.inr v) => v.toStr
  let bt := strLower (strTrim base)
  let bt := if bt = "" then DEFAULT_BLOCK_TYPE else bt
  let bt := underscoreNormalize bt
  if strStartsWith bt "minecraft:" then bt else "minecraft:" ++ bt

/-- pickFallbackBlockType: the catalog's own copy of the default type if
present, else the first catalog member, else the hardcoded default.  The
catalog models the module-level supportedBlockTypes set, listed in its
insertion order. -/
def pickFallbackBlockType (catalog : List String) : String :=
  if DEFAULT_BLOCK_TYPE ∈ catalog then DEFAULT_BLOCK_TYPE
  else catalog.headD DEFAULT_BLOCK_TYPE

/-- normalizeBlockType: the normalized candidate if the catalog contains
it, else the fallback.  (The one-time console diagnostic is I/O and is
not modelled.) -/
def normalizeBlockType (raw : Option Json) (scope : Scope) (catalog : List String) : String :=
  let bt := normalizeCandidate raw scope
  if bt ∈ catalog then bt else pickFallbackBlockType catalog

-- ===========================================================================
-- The scoped step interpreter
-- ===========================================================================

/-- An output block. -/
structure Block where
  x : Int
  y : Int
  z : Int
  blockType : String
deriving DecidableEq, Repr

/-- ExecBudget: the two counters bounding one expansion. -/
structure ExecBudget where
  executedSteps : Nat
  calls : Nat
deriving DecidableEq, Repr

/-- The mutable state of one expansion: the output array and budget. -/
structure ExecState where
  out : List Block
  budget : ExecBudget
deriving DecidableEq, Repr

/-- The errors the parser/interpreter throws.  Each constructor is one
throw site of the source; payloads carry what the message interpolates. -/
inductive ExecErr where
  | notJsonObject
  | missingStepsOrBlocks
  | defNotObject
  | defMissingName
  | defMissingSteps (name : String)
  | missingTopSteps
  | depthExceeded
  | gasExhausted
  | stepBudgetExceeded
  | callBudgetExceeded
  | stepNotObject
  | unsupportedOp (op : String)
  | forMissingVar
  | forStepZero
  | forMissingSteps
  | callMissingName
  | undefinedFunction (name : String)
  | invalidFunctionSteps (name : String)
  | missingArg (key name : String)
  | argNotNumberOrString (field : String)
  | argEmpty (field : String)
  | notNumberOrString (field : String)
  | emptyExpr (field : String)
  | exprError (field : String) (expr : String) (e : ParseErr)
  | legacyNotObject (idx : Nat)
deriving DecidableEq, Repr

/-- Result of running steps: the state as mutated so far, and the thrown
error if execution aborted. -/
abbrev StepResult := ExecState × Option ExecErr

/-- The defs table: name to raw definition object, latest first. -/
abbrev Defs := List (String × Json)

/-- The type of the recursive entry point a nested step list is run
with. -/
abbrev Runner := List Json → Scope → ExecState → StepResult

/-- evalIntExpr: a finite number truncates to an integer (identity on the
integers modelled here); a string is trimmed, rejected when empty, and
evaluated; anything else is rejected. -/
def evalIntExpr (raw : Option Json) (scope : Scope) (field : String) : Except ExecErr Int :=
  match raw with
  | some (.num n) => .ok n
  | some (.str s) =>
    let expr := strTrim s
    if expr = "" then .error (.emptyExpr field)
    else
      match evaluateIntegerExpression expr scope with
      | .ok n => .ok n
      | .error e => .error (.exprError field expr e)
  | _ => .error (.notNumberOrString field)

/-- evalCallArgValue: number, else trimmed string, which passes through a
bound bare identifier unevaluated, else is evaluated arithmetically, the
trimmed text itself being the result when evaluation fails. -/
def evalCallArgValue (raw : Json) (scope : Scope) (field : String) : Except ExecErr ScopeValue :=
  match raw with
  | .num n => .ok (.int n)
  | .str s =>
    let text := strTrim s
    if text = "" then .error (.argEmpty field)
    else
      match (if isIdentString text then List.lookup text scope else none) with
      | some v => .ok v
      | none =>
        match evaluateIntegerExpression text scope with
        | .ok n => .ok (.int n)
        | .error _ => .ok (.str text)
  | _ => .error (.argNotNumberOrString field)

/-- The ascending loop head values: for (let i = a; i <= limit; i +=
stride).  The fuel is an upper bound on the iteration count, proved
sufficient where the loop is entered (stride is positive there). -/
def ascLoop (stride limit : Int) : Nat → Int → List Int
  | 0, _ => []
  | n + 1, i => if i ≤ limit then i :: ascLoop stride limit n (i + stride) else []

/-- The descending loop head values: for (let i = a; i >= limit; i +=
stride), stride negative. -/
def descLoop (stride limit : Int) : Nat → Int → List Int
  | 0, _ => []
  | n + 1, i => if limit ≤ i then i :: descLoop stride limit n (i + stride) else []

/-- The sequence of values the for loop binds its variable to. -/
def forIterValues (a b s : Int) : List Int :=
  if 0 < s then ascLoop s b (b - a + 1).toNat a
  else if s < 0 then descLoop s b (a - b + 1).toNat a
  else []

/-- The body of the for loop: each iteration runs the nested steps in a
child scope binding the loop variable, aborts on error, and returns early
once the output has reached the block cap. -/
def forLoopWith (runBody : Scope → ExecState → StepResult) (v : String) (scope : Scope) : List Int → ExecState → StepResult
  | [], st => (st, none)
  | i :: rest, st =>
    match runBody ((v, ScopeValue.int i) :: scope) st with
    | (st', some e) => (st', some e)
    | (st', none) =>
      if MAX_BLOCKS ≤ st'.out.length then (st', none)
      else forLoopWith runBody v scope rest st'

/-- executeForStep, parametrized by the runner used for the nested body
(the interpreter one call-depth level deeper). -/
def executeForStep (run : Runner) (step : Json) (scope : Scope) (st : ExecState) : StepResult :=
  let varName := strTrim (jsToString (step.fieldCoalesce "var" (.str "")))
  if varName = "" then (st, some .forMissingVar)
  else
    match evalIntExpr (step.get? "from") scope "for.from" with
    | .error e => (st, some e)
    | .ok a =>
      match evalIntExpr (step.get? "to") scope "for.to" with
      | .error e => (st, some e)
      | .ok b =>
        match (match step.get? "step" with
               | none => Except.ok 1
               | some v => evalIntExpr (some v) scope "for.step") with
        | .error e => (st, some e)
        | .ok s =>
          if s = 0 then (st, some .forStepZero)
          else
            match step.get? "steps" with
            | some (.arr body) =>
              forLoopWith (fun sc st' => run body sc st') varName scope (forIterValues a b s) st
            | _ => (st, some .forMissingSteps)

/-- Argument-scope construction for a call step: with a declared params
array every trimmed nonempty param name must be supplied and is coerced;
without one every supplied argument is coerced under its own name. -/
def buildCallArgs (d : Json) (rawArgs : List (String × Json)) (scope : Scope) (name : String) : Except ExecErr Scope :=
  match d.get? "params" with
  | some (.arr params) =>
    params.foldlM (fun acc p =>
      let key := strTrim (jsToString (match p with | Json.null => Json.str "" | p => p))
      if key = "" then .ok acc
      else
        match List.lookup key rawArgs with
        | none => .error (.missingArg key name)
        | some v =>
          match evalCallArgValue v scope ("call." ++ name ++ ".args." ++ key) with
          | .error e => .error e
          | .ok sv => .ok ((key, sv) :: acc)) []
  | _ =>
    rawArgs.foldlM (fun acc kv =>
      match evalCallArgValue kv.2 scope ("call." ++ name ++ ".args." ++ kv.1) with
      | .error e => .error e
      | .ok sv => .ok ((kv.1, sv) :: acc)) []

/-- executeCallStep: count the call before resolving the callee, resolve
it, build the argument scope and run the definition's steps in the
caller scope overlaid with the arguments. -/
def executeCallStep (run : Runner) (defs : Defs) (step : Json) (scope : Scope) (st : ExecState) : StepResult :=
  let st1 : ExecState := { st with budget := { st.budget with calls := st.budget.calls + 1 } }
  if MAX_CALLS < st1.budget.calls then (st1, some .callBudgetExceeded)
  else
    let name := strTrim (jsToString (step.fieldCoalesce "name" (.str "")))
    if name = "" then (st1, some .callMissingName)
    else
      match List.lookup name defs with
      | none => (st1, some (.undefinedFunction name))
      | some d =>
        match d.get? "steps" with
        | some (.arr defSteps) =>
          let rawArgs := match step.get? "args" with
            | some (.obj fs) => fs
            | _ => []
          match buildCallArgs d rawArgs scope name with
          | .error e => (st1, some e)
          | .ok args => run defSteps (args ++ scope) st1
        | _ => (st1, some (.invalidFunctionSteps name))

/-- Normalization of one place/block step into an output block. -/
def normalizeCompactBlock (step : Json) (scope : Scope) (catalog : List String) : Except ExecErr Block :=
  match evalIntExpr (step.get? "x") scope "place.x" with
  | .error e => .error e
  | .ok x =>
    match evalIntExpr (step.get? "y") scope "place.y" with
    | .error e => .error e
    | .ok y =>
      match evalIntExpr (step.get? "z") scope "place.z" with
      | .error e => .error e
      | .ok z => .ok ⟨x, y, z, normalizeBlockType (step.get? "blockType") scope catalog⟩

/-- The step loop inside executeSteps: stop silently at the output cap,
count and bound the dequeued step, then dispatch on the lower-cased op
tag.  The nested step lists of for and call bodies run through the given
runner. -/
def executeStepsLoop (run : Runner) (catalog : List String) (defs : Defs) (scope : Scope) : List Json → ExecState → StepResult
  | [], st => (st, none)
  | rawStep :: rest, st =>
    if MAX_BLOCKS ≤ st.out.length then (st, none)
    else
      let st1 : ExecState := { st with budget := { st.budget with executedSteps := st.budget.executedSteps + 1 } }
      if MAX_EXECUTED_STEPS < st1.budget.executedSteps then (st1, some .stepBudgetExceeded)
      else if rawStep.isRecord then
        let op := strLower (jsToString (rawStep.fieldCoalesce "op" (.str "")))
        if op = "place" ∨ op = "block" then
          match normalizeCompactBlock rawStep scope catalog with
          | .error e => (st1, some e)
          | .ok b => executeStepsLoop run catalog defs scope rest { st1 with out := st1.out ++ [b] }
        else if op = "for" then
          match executeForStep run rawStep scope st1 with
          | (st2, some e) => (st2, some e)
          | (st2, none) => executeStepsLoop run catalog defs scope rest st2
        else if op = "call" then
          match executeCallStep run defs rawStep scope st1 with
          | (st2, some e) => (st2, some e)
          | (st2, none) => executeStepsLoop run catalog defs scope rest st2
        else (st1, some (.unsupportedOp op))
      else (st1, some .stepNotObject)

/-- executeSteps: refuse a call depth beyond the ceiling, then run the
step list; nested bodies run one call-depth level deeper.  The gas
argument only makes the recursion well-founded: the top level supplies
MAX_CALL_DEPTH + 1 units, and because every descent spends one unit and
raises the depth by one, the gas can only run out where the depth check
already fails, so gasExhausted is unreachable (proved below). -/
def executeSteps (catalog : List String) (defs : Defs) : Nat → Nat → List Json → Scope → ExecState → StepResult
  | 0, callDepth, _, _, st =>
    if MAX_CALL_DEPTH < callDepth then (st, some .depthExceeded)
    else (st, some .gasExhausted)
  | gas + 1, callDepth, steps, scope, st =>
    if MAX_CALL_DEPTH < callDepth then (st, some .depthExceeded)
    else executeStepsLoop (executeSteps catalog defs gas (callDepth + 1)) catalog defs scope steps st

/-- Gas supplied by the top-level expansion. -/
def INTERPRETER_GAS : Nat := MAX_CALL_DEPTH + 1

/-- Collection of the defs table; entries are validated in order and a
later definition of the same name shadows an earlier one. -/
def collectDefs (program : Json) : Except ExecErr Defs :=
  match program.get? "defs" with
  | some (.arr defsArr) =>
    defsArr.foldlM (fun acc rawDef =>
      if rawDef.isRecord then
        let name := strTrim (jsToString (rawDef.fieldCoalesce "name" (.str "")))
        if name = "" then .error .defMissingName
        else
          match rawDef.get? "steps" with
          | some (.arr _) => .ok ((name, rawDef) :: acc)
          | _ => .error (.defMissingSteps name)
      else .error .defNotObject) []
  | _ => .ok []

/-- expandCompactProgram: gather defs, require a top-level steps array,
and execute it from an empty scope, depth 0 and a fresh budget. -/
def expandCompactProgram (catalog : List String) (program : Json) : Except ExecErr (List Block) :=
  match collectDefs program with
  | .error e => .error e
  | .ok defs =>
    match program.get? "steps" with
    | some (.arr steps) =>
      match executeSteps catalog defs INTERPRETER_GAS 0 steps [] ⟨[], ⟨0, 0⟩⟩ with
      | (st, none) => .ok st.out
      | (_, some e) => .error e
    | _ => .error .missingTopSteps

/-- normalizeLegacyBlocks from a starting index: every entry must be a
record; coordinates evaluate against an empty scope and the block type
normalizes against an empty scope. -/
def normalizeLegacyBlocksFrom (catalog : List String) : Nat → List Json → Except ExecErr (List Block)
  | _, [] => .ok []
  | idx, raw :: rest =>
    if raw.isRecord then
      match evalIntExpr (raw.get? "x") [] ("blocks[" ++ toString idx ++ "].x") with
      | .error e => .error e
      | .ok x =>
        match evalIntExpr (raw.get? "y") [] ("blocks[" ++ toString idx ++ "].y") with
        | .error e => .error e
        | .ok y =>
          match evalIntExpr (raw.get? "z") [] ("blocks[" ++ toString idx ++ "].z") with
          | .error e => .error e
          | .ok z =>
            match normalizeLegacyBlocksFrom catalog (idx + 1) rest with
            | .error e => .error e
            | .ok bs => .ok (⟨x, y, z, normalizeBlockType (raw.get? "blockType") [] catalog⟩ :: bs)
    else .error (.legacyNotObject idx)

/-- normalizeLegacyBlocks maps the raw entries from index 0. -/
def normalizeLegacyBlocks (catalog : List String) (blocks : List Json) : Except ExecErr (List Block) :=
  normalizeLegacyBlocksFrom catalog 0 blocks

/-- parseBlocksFromResponse: dispatch between the compact shape (a steps
or defs array present), with fallback to an array-valued blocks field
when compact expansion throws, and the legacy shape; cap every returned
list at MAX_BLOCKS. -/
def parseBlocksFromResponse (catalog : List String) (raw : Json) : Except ExecErr (List Block) :=
  if raw.isRecord then
    if raw.hasArrayField "steps" || raw.hasArrayField "defs" then
      match expandCompactProgram catalog raw with
      | .ok bs => .ok (bs.take MAX_BLOCKS)
      | .error e =>
        match raw.get? "blocks" with
        | some (.arr blocks) =>
          match normalizeLegacyBlocks catalog blocks with
          | .ok bs => .ok (bs.take MAX_BLOCKS)
          | .error e2 => .error e2
        | _ => .error e
    else
      match raw.get? "blocks" with
      | some (.arr blocks) =>
        match normalizeLegacyBlocks catalog blocks with
        | .ok bs => .ok (bs.take MAX_BLOCKS)
        | .error e2 => .error e2
      | _ => .error .missingStepsOrBlocks
  else .error .notJsonObject

-- ===========================================================================
-- Auxiliary definitions used by the verification statements
-- ===========================================================================

/-- Whether an Except result is a success. -/
def isOkE {ε α : Type} : Except ε α → Bool
  | .ok _ => true
  | .error _ => false

/-- The integer a variable evaluates to inside an expression, if any:
the binding must exist and, when it is a string, its trimmed text must
match the numeric regex. -/
def lookupNumeric (scope : Scope) (v : String) : Option Int :=
  match List.lookup v scope with
  | none => none
  | some (.int n) => some n
  | some (.str s) => if isNumericString (strTrim s) then some (parseIntString (strTrim s)) else none

/-- A character the tokenizer rejects: not whitespace, not a digit, not
an identifier start, not one of the four operators, not a parenthesis. -/
def invalidExprChar (c : Char) : Bool :=
  !isWsChar c && !isDigitChar c && !isIdentStartChar c &&
  !(c = '+' || c = '-' || c = '*' || c = '/' || c = '(' || c = ')')

/-- The nonterminal a derivation step belongs to. -/
inductive DK where
  | factor
  | term
  | termTail
  | expr
  | exprTail
deriving DecidableEq, Repr

/-- The *,/ chain cannot continue at this token list. -/
def noMulDivHead : List Token → Bool
  | Token.op c :: _ => !(c = '*' || c = '/')
  | _ => true

/-- The +,- chain cannot continue at this token list. -/
def noAddSubHead : List Token → Bool
  | Token.op c :: _ => !(c = '+' || c = '-')
  | _ => true

/-- The precedence grammar of the expression language, as a relation
consuming a prefix of the token list: `Deriv k t r` says the nonterminal
k derives the tokens of t up to the remainder r.  The chain nonterminals
stop exactly when the next token cannot extend them, mirroring the
greedy parse. -/
inductive Deriv : DK → List Token → List Token → Prop where
  | num : ∀ n r, Deriv .factor (Token.num n :: r) r
  | idnt : ∀ s r, Deriv .factor (Token.ident s :: r) r
  | sign : ∀ c t r, (c = '+' ∨ c = '-') → Deriv .factor t r → Deriv .factor (Token.op c :: t) r
  | paren : ∀ t r, Deriv .expr t (Token.rparen :: r) → Deriv .factor (Token.lparen :: t) r
  | term : ∀ t m r, Deriv .factor t m → Deriv .termTail m r → Deriv .term t r
  | termTailStop : ∀ r, noMulDivHead r = true → Deriv .termTail r r
  | termTailCons : ∀ c t m r, (c = '*' ∨ c = '/') → Deriv .factor t m → Deriv .termTail m r →
      Deriv .termTail (Token.op c :: t) r
  | expr : ∀ t m r, Deriv .term t m → Deriv .exprTail m r → Deriv .expr t r
  | exprTailStop : ∀ r, noAddSubHead r = true → Deriv .exprTail r r
  | exprTailCons : ∀ c t m r, (c = '+' ∨ c = '-') → Deriv .term t m → Deriv .exprTail m r →
      Deriv .exprTail (Token.op c :: t) r

/-- Running parenthesis balance check of a token list. -/
def parenBalance : Nat → List Token → Bool
  | k, [] => k = 0
  | k, Token.lparen :: r => parenBalance (k + 1) r
  | k, Token.rparen :: r => match k with
    | 0 => false
    | k' + 1 => parenBalance k' r
  | k, _ :: r => parenBalance k r

/-- The failure conditions of the claim, read literally: the expression
is empty (only whitespace, so it has no tokens), contains an invalid
character, has unmatched parentheses, has trailing tokens after a
complete expression, references a variable that is unbound or bound to a
non-numeric string, or divides by zero. -/
def specEvalFailureCondition (expr : String) (scope : Scope) : Prop :=
  (expr.data.all isWsChar = true)
  ∨ (∃ c ∈ expr.data, invalidExprChar c = true)
  ∨ (∃ toks, tokenizeExpression expr = .ok toks ∧ parenBalance 0 toks = false)
  ∨ (∃ toks rest, tokenizeExpression expr = .ok toks ∧ rest ≠ [] ∧ Deriv .expr toks rest)
  ∨ (∃ toks v, tokenizeExpression expr = .ok toks ∧ Token.ident v ∈ toks ∧ lookupNumeric scope v = none)
  ∨ evaluateIntegerExpression expr scope = .error .divisionByZero

/-- The failure conditions amended: malformed token sequences (those the
grammar cannot derive as one complete expression, which subsumes
unmatched parentheses and trailing tokens) are failures too. -/
def amendedFailureCondition (expr : String) (scope : Scope) : Prop :=
  (expr.data.all isWsChar = true)
  ∨ (∃ c ∈ expr.data, invalidExprChar c = true)
  ∨ (∃ toks, tokenizeExpression expr = .ok toks ∧ ¬ Deriv .expr toks [])
  ∨ (∃ toks v, tokenizeExpression expr = .ok toks ∧ Token.ident v ∈ toks ∧ lookupNumeric scope v = none)
  ∨ evaluateIntegerExpression expr scope = .error .divisionByZero

/-- The errors of the evaluator that depend on runtime values rather
than on the token shape. -/
def isSemErrB : ParseErr → Bool
  | .unknownVar _ => true
  | .nonNumericVar _ => true
  | .divisionByZero => true
  | _ => false

/-- Fuel sufficient for the recursive-descent parser to finish one
nonterminal on a token list without running out. -/
def pkindNeed : PKind → List Token → Nat
  | .factor, toks => 4 * toks.length + 1
  | .term, toks => 4 * toks.length + 2
  | .termLoop _, toks => 4 * toks.length + 2
  | .expr, toks => 4 * toks.length + 3
  | .exprLoop _, toks => 4 * toks.length + 3

/-- What a parse error tells about the input: an unknown-variable error
names an identifier token of the input missing from the scope, a
non-numeric-variable error names one bound to a non-numeric string, the
bad-operator error is unreachable, and with sufficient fuel the
out-of-fuel error is unreachable. -/
abbrev ErrAttr (scope : Scope) (fuel : Nat) (toks : List Token) (k : PKind) (e : ParseErr) :
    Prop :=
  (∀ w, e = .unknownVar w → Token.ident w ∈ toks ∧ List.lookup w scope = none)
  ∧ (∀ w, e = .nonNumericVar w → Token.ident w ∈ toks ∧
      ∃ s, List.lookup w scope = some (ScopeValue.str s) ∧
        isNumericString (strTrim s) = false)
  ∧ e ≠ .badOperator
  ∧ (pkindNeed k toks ≤ fuel → e ≠ .outOfFuel)

/-- The budget bookkeeping facts one run preserves: both counters only
grow; from a state within the step ceiling, a stepBudgetExceeded error
is raised exactly at ceiling + 1 and a run that does not raise it stays
within the ceiling; the same for the call ceiling; and the gas
bookkeeping device never surfaces. -/
def BudgetInv (st : ExecState) (r : StepResult) : Prop :=
  st.budget.executedSteps ≤ r.1.budget.executedSteps
  ∧ st.budget.calls ≤ r.1.budget.calls
  ∧ (st.budget.executedSteps ≤ MAX_EXECUTED_STEPS →
      (r.2 = some ExecErr.stepBudgetExceeded → r.1.budget.executedSteps = MAX_EXECUTED_STEPS + 1)
      ∧ (r.2 ≠ some ExecErr.stepBudgetExceeded → r.1.budget.executedSteps ≤ MAX_EXECUTED_STEPS))
  ∧ (st.budget.calls ≤ MAX_CALLS →
      (r.2 = some ExecErr.callBudgetExceeded → r.1.budget.calls = MAX_CALLS + 1)
      ∧ (r.2 ≠ some ExecErr.callBudgetExceeded → r.1.budget.calls ≤ MAX_CALLS))

/-- A well-formed legacy blocks entry: a record whose three coordinates
evaluate against the empty scope.  (Success of the coordinate evaluator
does not depend on the diagnostic field label.) -/
def legacyEntryOk (b : Json) : Bool :=
  b.isRecord
  && isOkE (evalIntExpr (b.get? "x") [] "x")
  && isOkE (evalIntExpr (b.get? "y") [] "y")
  && isOkE (evalIntExpr (b.get? "z") [] "z")

/-- Call-argument coercion exactly as the amended claim describes it: a
finite numeric value is truncated to an integer; a non-number non-string
is an error; a string is trimmed first and an empty result is an error;
a trimmed string that is a bare identifier bound in the caller's scope
passes the binding through unevaluated; otherwise arithmetic evaluation
is attempted on the trimmed string, and if it fails the trimmed string
is passed through. -/
def coerceArgSpec (raw : Json) (scope : Scope) (field : String) : Except ExecErr ScopeValue :=
  match raw with
  | .num n => .ok (.int n)
  | .str s =>
    let t := strTrim s
    if t = "" then .error (.argEmpty field)
    else if isIdentString t && (List.lookup t scope).isSome then
      .ok ((List.lookup t scope).getD (.str t))
    else
      match evaluateIntegerExpression t scope with
      | .ok n => .ok (.int n)
      | .error _ => .ok (.str t)
  | _ => .error (.argNotNumberOrString field)

/-- Call-argument coercion as the claim originally words it: numeric
values truncate; a string that is a bare identifier bound in the
caller's scope passes the binding through; otherwise arithmetic
evaluation is attempted, and if it fails the raw string is passed
through unchanged.  (No trimming and no empty-string failure appear in
the claim; values that are neither numbers nor strings are outside its
fallback chain.) -/
def coerceArgClaim (raw : Json) (scope : Scope) : Option ScopeValue :=
  match raw with
  | .num n => some (.int n)
  | .str s =>
    if isIdentString s && (List.lookup s scope).isSome then
      some ((List.lookup s scope).getD (.str s))
    else
      match evaluateIntegerExpression s scope with
      | .ok n => some (.int n)
      | .error _ => some (.str s)
  | _ => none

/-- Number of iterations of the ascending for loop: the k ≥ 0 with
a + k*s ≤ b are exactly the k below this count. -/
def ascCount (a b s : Int) : Nat := ((b - a) / s + 1).toNat

/-- Number of iterations of the descending for loop. -/
def descCount (a b s : Int) : Nat := ((a - b) / (-s) + 1).toNat

-- ===========================================================================
-- Concrete demonstration inputs
-- ===========================================================================

/-- A small catalog for the concrete runs. -/
def demoCatalog : List String := ["minecraft:stone", "minecraft:dirt", "minecraft:oak_planks"]

/-- A place step literal. -/
def mkPlaceStep (x y z : Json) (bt : String) : Json :=
  Json.obj [("op", Json.str "place"), ("x", x), ("y", y), ("z", z), ("blockType", Json.str bt)]

/-- A for step literal with an explicit stride expression. -/
def mkForStep (v : String) (fromE toE stepE : Json) (body : List Json) : Json :=
  Json.obj [("op", Json.str "for"), ("var", Json.str v), ("from", fromE), ("to", toE),
    ("step", stepE), ("steps", Json.arr body)]

/-- The claim's example loop: for i from 0 to 4 placing a block at
x = i (with the elided coordinates made concrete). -/
def forExampleProgram : Json :=
  Json.obj [("steps", Json.arr [Json.obj [("op", Json.str "for"), ("var", Json.str "i"),
    ("from", Json.num 0), ("to", Json.num 4),
    ("steps", Json.arr [mkPlaceStep (Json.str "i") (Json.num 0) (Json.num 0) "stone"])]])]

/-- n levels of nested single-iteration for loops around one place
step. -/
def nestedForStep : Nat → Json
  | 0 => mkPlaceStep (Json.num 0) (Json.num 0) (Json.num 0) "stone"
  | n + 1 => Json.obj [("op", Json.str "for"), ("var", Json.str "i"),
      ("from", Json.num 0), ("to", Json.num 0),
      ("steps", Json.arr [nestedForStep n])]

/-- A compact program whose steps nest n for levels deep. -/
def nestedForProgram (n : Nat) : Json := Json.obj [("steps", Json.arr [nestedForStep n])]

/-- A legacy document whose first entry's x coordinate is a bare
identifier; legacy parsing evaluates it against the empty scope. -/
def demoLegacyVarDoc : Json :=
  Json.obj [("blocks", Json.arr [Json.obj [("x", Json.str "n"), ("y", Json.num 0),
    ("z", Json.num 0), ("blockType", Json.str "stone")]])]

-- ===========================================================================
-- Theorems
-- ===========================================================================

/-- Over a non-empty catalog, the normalizer's output is always a
catalog member (shared helper). -/
theorem normalizeBlockType_mem (raw : Option Json) (scope : Scope) (catalog : List String)
    (h : catalog ≠ []) : normalizeBlockType raw scope catalog ∈ catalog := by
  unfold normalizeBlockType pickFallbackBlockType
  by_cases hm : normalizeCandidate raw scope ∈ catalog
  · simp [hm]
  · simp only [hm, if_false]
    by_cases hd : DEFAULT_BLOCK_TYPE ∈ catalog
    · simp [hd]
    · simp only [hd, if_false]
      cases catalog with
      | nil => exact absurd rfl h
      | cons a l => simp [List.headD]

/-- C6: the block-type normalizer is a total function into strings, and
over the current non-empty catalog it always returns a catalog member:
a normalized candidate already in the catalog is returned as is, one
that is not is replaced by the fallback identifier, and the fallback is
the catalog's own copy of the canonical default when present, else the
first catalog member. -/
theorem c6_normalizer_total_and_catalog_valid :
    ∀ (raw : Option Json) (scope : Scope) (catalog : List String), catalog ≠ [] →
      normalizeBlockType raw scope catalog ∈ catalog
      ∧ (normalizeCandidate raw scope ∈ catalog →
          normalizeBlockType raw scope catalog = normalizeCandidate raw scope)
      ∧ (normalizeCandidate raw scope ∉ catalog →
          normalizeBlockType raw scope catalog = pickFallbackBlockType catalog)
      ∧ (DEFAULT_BLOCK_TYPE ∈ catalog → pickFallbackBlockType catalog = DEFAULT_BLOCK_TYPE)
      ∧ (DEFAULT_BLOCK_TYPE ∉ catalog →
          pickFallbackBlockType catalog = catalog.headD DEFAULT_BLOCK_TYPE) := by
  intro raw scope catalog h
  refine ⟨normalizeBlockType_mem raw scope catalog h, ?_, ?_, ?_, ?_⟩
  · intro hm; simp [normalizeBlockType, hm]
  · intro hm; simp [normalizeBlockType, hm]
  · intro hd; simp [pickFallbackBlockType, hd]
  · intro hd; simp [pickFallbackBlockType, hd]

/-- Witness for C6 at a concrete unsupported identifier and a singleton
catalog. -/
theorem c6_normalizer_total_and_catalog_valid_witness :
    (["minecraft:stone"] : List String) ≠ []
    ∧ normalizeBlockType (some (Json.str "foo")) [] ["minecraft:stone"] ∈ ["minecraft:stone"] :=
  ⟨by decide,
   (c6_normalizer_total_and_catalog_valid (some (Json.str "foo")) [] ["minecraft:stone"]
     (by decide)).1⟩

/-- C4: executing a nested step list with callDepth greater than 24 is a
hard error before anything runs; a program of 30 nested for levels
raises the call-depth error, while one of 20 nested levels expands to
its single block. -/
theorem c4_call_depth_ceiling :
    (∀ (catalog : List String) (defs : Defs) (gas callDepth : Nat) (steps : List Json)
        (scope : Scope) (st : ExecState), MAX_CALL_DEPTH < callDepth →
        executeSteps catalog defs gas callDepth steps scope st = (st, some ExecErr.depthExceeded))
    ∧ parseBlocksFromResponse demoCatalog (nestedForProgram 30) = .error ExecErr.depthExceeded
    ∧ parseBlocksFromResponse demoCatalog (nestedForProgram 20) =
        .ok [⟨0, 0, 0, "minecraft:stone"⟩] := by
  refine ⟨?_, by decide, by decide⟩
  intro catalog defs gas d steps scope st h
  cases gas <;> simp [executeSteps, h]

/-- Witness for C4's universal part at call depth 25. -/
theorem c4_call_depth_ceiling_witness :
    MAX_CALL_DEPTH < 25
    ∧ executeSteps demoCatalog [] 3 25 [] [] ⟨[], ⟨0, 0⟩⟩ =
        (⟨[], ⟨0, 0⟩⟩, some ExecErr.depthExceeded) :=
  ⟨by decide, c4_call_depth_ceiling.1 demoCatalog [] 3 25 [] [] ⟨[], ⟨0, 0⟩⟩ (by decide)⟩

/-- C2: the evaluator follows the precedence grammar (products bind
tighter than sums, parentheses and unary sign work), division truncates
toward zero rather than flooring (generalized to every dividend strictly
between -divisor and 0, where flooring would give -1), and division by
zero is an error. -/
theorem c2_expression_evaluation :
    evaluateIntegerExpression "(x+z)/2" [("x", ScopeValue.int 5), ("z", ScopeValue.int 1)] = .ok 3
    ∧ evaluateIntegerExpression "-1/2" [] = .ok 0
    ∧ evaluateIntegerExpression "-7/2" [] = .ok (-3)
    ∧ evaluateIntegerExpression "2+3*4" [] = .ok 14
    ∧ evaluateIntegerExpression "(2+3)*4" [] = .ok 20
    ∧ evaluateIntegerExpression "2-3-4" [] = .ok (-5)
    ∧ evaluateIntegerExpression "1/0" [] = .error ParseErr.divisionByZero
    ∧ evaluateIntegerExpression "5/(3-3)" [] = .error ParseErr.divisionByZero
    ∧ (∀ a b : Int, b ≠ 0 → applyIntOp a '/' b = .ok (Int.tdiv a b))
    ∧ (∀ a b : Int, 0 < b → -b < a → a < 0 → applyIntOp a '/' b = .ok 0) := by
  refine ⟨by decide, by decide, by decide, by decide, by decide, by decide, by decide, by decide,
    ?_, ?_⟩
  · intro a b hb
    simp [applyIntOp, hb]
  · intro a b hb hlow hneg
    have hz : Int.tdiv a b = 0 := by
      have h1 : (-a).tdiv b = (-a) / b := Int.tdiv_eq_ediv (by omega) (by omega)
      have h2 : (-a) / b = 0 := Int.ediv_eq_zero_of_lt (by omega) (by omega)
      have h3 : (-a).tdiv b = -(a.tdiv b) := Int.neg_tdiv a b
      omega
    have hbne : b ≠ 0 := by omega
    simp [applyIntOp, hz, hbne]

/-- Witness for C2's universal parts at dividend -1 and divisor 2. -/
theorem c2_expression_evaluation_witness :
    ((2 : Int) ≠ 0 ∧ applyIntOp (-1) '/' 2 = .ok (Int.tdiv (-1) 2))
    ∧ ((0 : Int) < 2 ∧ (-2 : Int) < -1 ∧ (-1 : Int) < 0 ∧ applyIntOp (-1) '/' 2 = .ok 0) :=
  ⟨⟨by decide, (c2_expression_evaluation.2.2.2.2.2.2.2.2.1) (-1) 2 (by decide)⟩,
   ⟨by decide, by decide, by decide,
    (c2_expression_evaluation.2.2.2.2.2.2.2.2.2) (-1) 2 (by decide) (by decide) (by decide)⟩⟩

/-- C5: dispatch of a JSON object document: when it has an array-valued
steps or defs field compact parsing is attempted and a successful
expansion is returned (capped); when compact expansion throws and an
array-valued blocks field is present the result is the legacy parse of
that array instead of the compact error; without such a blocks field the
compact error propagates; and a document that is neither compact-shaped
nor carries an array-valued blocks field fails with the missing
steps/defs-and-blocks error. -/
theorem c5_dual_format_dispatch :
    ∀ (catalog : List String) (fields : List (String × Json)),
      (∀ bs, ((Json.obj fields).hasArrayField "steps" || (Json.obj fields).hasArrayField "defs") = true →
        expandCompactProgram catalog (Json.obj fields) = .ok bs →
        parseBlocksFromResponse catalog (Json.obj fields) = .ok (bs.take MAX_BLOCKS))
      ∧ (∀ e blocks,
          ((Json.obj fields).hasArrayField "steps" || (Json.obj fields).hasArrayField "defs") = true →
          expandCompactProgram catalog (Json.obj fields) = .error e →
          (Json.obj fields).get? "blocks" = some (Json.arr blocks) →
          parseBlocksFromResponse catalog (Json.obj fields) =
            (match normalizeLegacyBlocks catalog blocks with
             | .ok l => .ok (l.take MAX_BLOCKS)
             | .error e2 => .error e2))
      ∧ (∀ e,
          ((Json.obj fields).hasArrayField "steps" || (Json.obj fields).hasArrayField "defs") = true →
          expandCompactProgram catalog (Json.obj fields) = .error e →
          (Json.obj fields).hasArrayField "blocks" = false →
          parseBlocksFromResponse catalog (Json.obj fields) = .error e)
      ∧ (((Json.obj fields).hasArrayField "steps" || (Json.obj fields).hasArrayField "defs") = false →
          (Json.obj fields).hasArrayField "blocks" = false →
          parseBlocksFromResponse catalog (Json.obj fields) = .error ExecErr.missingStepsOrBlocks) := by
  intro catalog fields
  refine ⟨?_, ?_, ?_, ?_⟩
  · intro bs hshape hexp
    simp [parseBlocksFromResponse, Json.isRecord, hshape, hexp]
  · intro e blocks hshape hexp hblocks
    simp [parseBlocksFromResponse, Json.isRecord, hshape, hexp, hblocks]
  · intro e hshape hexp hblocks
    simp only [parseBlocksFromResponse, Json.isRecord, hshape, hexp, if_true]
    cases hb : (Json.obj fields).get? "blocks" with
    | none => simp
    | some v =>
      cases v <;> simp_all [Json.hasArrayField]
  · intro hshape hblocks
    simp only [parseBlocksFromResponse, Json.isRecord, hshape, Bool.false_eq_true, if_false,
      if_true]
    cases hb : (Json.obj fields).get? "blocks" with
    | none => simp
    | some v =>
      cases v <;> simp_all [Json.hasArrayField]

/-- Unrolling one entry of an arithmetic-progression list. -/
theorem range_map_mul_succ (a s : Int) (m : Nat) :
    (List.range (m + 1)).map (fun k : Nat => a + (k : Int) * s) =
      a :: (List.range m).map (fun k : Nat => (a + s) + (k : Int) * s) := by
  rw [List.range_succ_eq_map, List.map_cons, List.map_map]
  congr 1
  · simp
  · apply List.map_congr_left
    intro k _
    simp only [Function.comp_apply]
    push_cast
    ring

/-- The ascending loop, run with enough fuel, produces exactly the
first ascCount multiples-of-stride offsets from its start value. -/
theorem ascLoop_closed (s b : Int) (hs : 0 < s) :
    ∀ (n : Nat) (a : Int), ascCount a b s ≤ n →
      ascLoop s b n a = (List.range (ascCount a b s)).map (fun k : Nat => a + (k : Int) * s) := by
  intro n
  induction n with
  | zero =>
    intro a h
    have h0 : ascCount a b s = 0 := Nat.le_zero.mp h
    simp [ascLoop, h0]
  | succ n ih =>
    intro a h
    by_cases hab : a ≤ b
    · have hq0 : 0 ≤ (b - a) / s := Int.ediv_nonneg (by omega) (by omega)
      have hsub : (b - (a + s)) / s = (b - a) / s - 1 := by
        have hdiv := Int.add_mul_ediv_right (b - a) (-1) (show s ≠ 0 by omega)
        have heq : b - (a + s) = b - a + -1 * s := by ring
        rw [heq, hdiv]
        omega
      have hcA : ascCount a b s = ((b - a) / s).toNat + 1 := by
        unfold ascCount; omega
      have hcB : ascCount (a + s) b s = ((b - a) / s).toNat := by
        unfold ascCount; rw [hsub]; omega
      have hle : ascCount (a + s) b s ≤ n := by omega
      have ihh := ih (a + s) hle
      rw [show ascLoop s b (n + 1) a = a :: ascLoop s b n (a + s) by simp [ascLoop, hab]]
      rw [ihh, hcA, hcB, range_map_mul_succ]
    · have hneg : (b - a) / s < 0 := Int.ediv_neg' (by omega) hs
      have hc0 : ascCount a b s = 0 := by unfold ascCount; omega
      rw [hc0]
      simp [ascLoop, hab]

/-- The descending loop, run with enough fuel, produces exactly the
first descCount stride offsets from its start value. -/
theorem descLoop_closed (s b : Int) (hs : s < 0) :
    ∀ (n : Nat) (a : Int), descCount a b s ≤ n →
      descLoop s b n a = (List.range (descCount a b s)).map (fun k : Nat => a + (k : Int) * s) := by
  intro n
  induction n with
  | zero =>
    intro a h
    have h0 : descCount a b s = 0 := Nat.le_zero.mp h
    simp [descLoop, h0]
  | succ n ih =>
    intro a h
    by_cases hab : b ≤ a
    · have hq0 : 0 ≤ (a - b) / (-s) := Int.ediv_nonneg (by omega) (by omega)
      have hsub : (a + s - b) / (-s) = (a - b) / (-s) - 1 := by
        have hdiv := Int.add_mul_ediv_right (a - b) (-1) (show (-s) ≠ 0 by omega)
        have heq : a + s - b = a - b + -1 * -s := by ring
        rw [heq, hdiv]
        omega
      have hcA : descCount a b s = ((a - b) / (-s)).toNat + 1 := by
        unfold descCount; omega
      have hcB : descCount (a + s) b s = ((a - b) / (-s)).toNat := by
        unfold descCount; rw [hsub]; omega
      have hle : descCount (a + s) b s ≤ n := by omega
      have ihh := ih (a + s) hle
      rw [show descLoop s b (n + 1) a = a :: descLoop s b n (a + s) by simp [descLoop, hab]]
      rw [ihh, hcA, hcB, range_map_mul_succ]
    · have hneg : (a - b) / (-s) < 0 := Int.ediv_neg' (by omega) (by omega)
      have hc0 : descCount a b s = 0 := by unfold descCount; omega
      rw [hc0]
      simp [descLoop, hab]

/-- The fuel the interpreter passes to the ascending loop covers every
iteration. -/
theorem ascCount_le_fuel (a b s : Int) (hs : 0 < s) : ascCount a b s ≤ (b - a + 1).toNat := by
  unfold ascCount
  by_cases hab : a ≤ b
  · have h1 : (b - a) / s ≤ b - a := Int.ediv_le_self s (by omega)
    omega
  · have h2 : (b - a) / s < 0 := Int.ediv_neg' (by omega) hs
    omega

/-- The fuel the interpreter passes to the descending loop covers every
iteration. -/
theorem descCount_le_fuel (a b s : Int) (hs : s < 0) : descCount a b s ≤ (a - b + 1).toNat := by
  unfold descCount
  by_cases hab : b ≤ a
  · have h1 : (a - b) / (-s) ≤ a - b := Int.ediv_le_self (-s) (by omega)
    omega
  · have h2 : (a - b) / (-s) < 0 := Int.ediv_neg' (by omega) (by omega)
    omega

/-- With a positive stride the loop values are the ascending arithmetic
progression of length ascCount. -/
theorem forIterValues_pos (a b s : Int) (hs : 0 < s) :
    forIterValues a b s = (List.range (ascCount a b s)).map (fun k : Nat => a + (k : Int) * s) := by
  unfold forIterValues
  rw [if_pos hs]
  exact ascLoop_closed s b hs _ a (ascCount_le_fuel a b s hs)

/-- With a negative stride the loop values are the descending arithmetic
progression of length descCount. -/
theorem forIterValues_neg (a b s : Int) (hs : s < 0) :
    forIterValues a b s = (List.range (descCount a b s)).map (fun k : Nat => a + (k : Int) * s) := by
  unfold forIterValues
  rw [if_neg (by omega), if_pos hs]
  exact descLoop_closed s b hs _ a (descCount_le_fuel a b s hs)

/-- The ascending iteration count captures the loop guard: iteration k
happens exactly while a + k*s stays at most b. -/
theorem ascCount_iff (a b s : Int) (hs : 0 < s) (k : Nat) :
    a + (k : Int) * s ≤ b ↔ k < ascCount a b s := by
  have h1 : ((k : Int) ≤ (b - a) / s ↔ (k : Int) * s ≤ b - a) := Int.le_ediv_iff_mul_le hs
  unfold ascCount
  constructor
  · intro h
    have h2 : (k : Int) * s ≤ b - a := by linarith
    have h3 := h1.mpr h2
    generalize hq : (b - a) / s = q at h3 ⊢
    omega
  · intro h
    have h3 : (k : Int) ≤ (b - a) / s := by
      generalize hq : (b - a) / s = q at h ⊢
      omega
    have h2 := h1.mp h3
    linarith

/-- The descending iteration count captures the loop guard: iteration k
happens exactly while a + k*s stays at least b. -/
theorem descCount_iff (a b s : Int) (hs : s < 0) (k : Nat) :
    b ≤ a + (k : Int) * s ↔ k < descCount a b s := by
  have h1 : ((k : Int) ≤ (a - b) / (-s) ↔ (k : Int) * (-s) ≤ a - b) :=
    Int.le_ediv_iff_mul_le (by omega)
  unfold descCount
  constructor
  · intro h
    have h2 : (k : Int) * (-s) ≤ a - b := by
      have : (k : Int) * (-s) = -((k : Int) * s) := by ring
      rw [this]
      linarith
    have h3 := h1.mpr h2
    generalize hq : (a - b) / (-s) = q at h3 ⊢
    omega
  · intro h
    have h3 : (k : Int) ≤ (a - b) / (-s) := by
      generalize hq : (a - b) / (-s) = q at h ⊢
      omega
    have h2 := h1.mp h3
    have : (k : Int) * (-s) = -((k : Int) * s) := by ring
    rw [this] at h2
    linarith

/-- String conversion of a string value is that value. -/
theorem jsToString_str (s : String) : jsToString (Json.str s) = s := rfl

/-- C1: for a for step whose variable name, bounds and stride evaluate
in the current scope to v, a, b and s: with s > 0 the body runs once for
each value a, a+s, a+2s, ... while the value stays at most b, in
ascending order; with s < 0 once for each value while it stays at least
b, in descending order; s = 0 is a hard error raised before any
iteration (the state is returned untouched); each iteration runs the
body in a child scope that is the parent scope with v bound to the
iteration value; and the claim's example program places blocks with
x = 0, 1, 2, 3, 4 in that order. -/
theorem c1_for_loop_semantics :
    ∀ (run : Runner) (v : String) (fromE toE stepE : Json) (body : List Json)
      (scope : Scope) (st : ExecState) (a b s : Int),
      strTrim v = v → v ≠ "" →
      evalIntExpr (some fromE) scope "for.from" = .ok a →
      evalIntExpr (some toE) scope "for.to" = .ok b →
      evalIntExpr (some stepE) scope "for.step" = .ok s →
      (0 < s → executeForStep run (mkForStep v fromE toE stepE body) scope st =
          forLoopWith (fun sc st' => run body sc st') v scope
            ((List.range (ascCount a b s)).map (fun k : Nat => a + (k : Int) * s)) st)
      ∧ (s < 0 → executeForStep run (mkForStep v fromE toE stepE body) scope st =
          forLoopWith (fun sc st' => run body sc st') v scope
            ((List.range (descCount a b s)).map (fun k : Nat => a + (k : Int) * s)) st)
      ∧ (s = 0 → executeForStep run (mkForStep v fromE toE stepE body) scope st =
          (st, some ExecErr.forStepZero))
      ∧ (0 < s → ∀ k : Nat, (a + (k : Int) * s ≤ b ↔ k < ascCount a b s))
      ∧ (s < 0 → ∀ k : Nat, (b ≤ a + (k : Int) * s ↔ k < descCount a b s))
      ∧ (∀ (i : Int) (w : String), List.lookup w ((v, ScopeValue.int i) :: scope) =
          if w = v then some (ScopeValue.int i) else List.lookup w scope)
      ∧ parseBlocksFromResponse demoCatalog forExampleProgram =
          .ok [⟨0, 0, 0, "minecraft:stone"⟩, ⟨1, 0, 0, "minecraft:stone"⟩,
               ⟨2, 0, 0, "minecraft:stone"⟩, ⟨3, 0, 0, "minecraft:stone"⟩,
               ⟨4, 0, 0, "minecraft:stone"⟩] := by
  intro run v fromE toE stepE body scope st a b s hv hne ha hb hs'
  have h1 : (mkForStep v fromE toE stepE body).fieldCoalesce "var" (Json.str "") = Json.str v := rfl
  have h2 : (mkForStep v fromE toE stepE body).get? "from" = some fromE := rfl
  have h3 : (mkForStep v fromE toE stepE body).get? "to" = some toE := rfl
  have h4 : (mkForStep v fromE toE stepE body).get? "step" = some stepE := rfl
  have h5 : (mkForStep v fromE toE stepE body).get? "steps" = some (Json.arr body) := rfl
  refine ⟨?_, ?_, ?_, fun hp k => ascCount_iff a b s hp k, fun hn k => descCount_iff a b s hn k,
    ?_, by decide⟩
  · intro hpos
    have hsne : ¬ s = 0 := by omega
    simp only [executeForStep, h1, h2, h3, h4, h5, jsToString_str, hv, ha, hb, hs']
    rw [if_neg hne, if_neg hsne, forIterValues_pos a b s hpos]
  · intro hneg
    have hsne : ¬ s = 0 := by omega
    simp only [executeForStep, h1, h2, h3, h4, h5, jsToString_str, hv, ha, hb, hs']
    rw [if_neg hne, if_neg hsne, forIterValues_neg a b s hneg]
  · intro hzero
    simp only [executeForStep, h1, h2, h3, h4, h5, jsToString_str, hv, ha, hb, hs']
    rw [if_neg hne, if_pos hzero]
  · intro i w
    by_cases hw : w = v
    · simp [List.lookup, hw]
    · simp only [List.lookup]
      have : (w == v) = false := by
        simp [hw]
      rw [this, if_neg hw]

/-- Witness for C1 at a concrete for step iterating 0..4 with stride 1
under a runner that does nothing. -/
theorem c1_for_loop_semantics_witness :
    strTrim "i" = "i" ∧ ("i" : String) ≠ ""
    ∧ evalIntExpr (some (Json.num 0)) [] "for.from" = .ok 0
    ∧ evalIntExpr (some (Json.num 4)) [] "for.to" = .ok 4
    ∧ evalIntExpr (some (Json.num 1)) [] "for.step" = .ok 1
    ∧ ((0 : Int) < 1 →
        executeForStep (fun _ _ st' => (st', none)) (mkForStep "i" (Json.num 0) (Json.num 4)
            (Json.num 1) []) [] ⟨[], ⟨0, 0⟩⟩ =
          forLoopWith (fun sc st' => (fun (_ : List Json) (_ : Scope) st'' => (st'', none)) [] sc st')
            "i" [] ((List.range (ascCount 0 4 1)).map (fun k : Nat => 0 + (k : Int) * 1))
            ⟨[], ⟨0, 0⟩⟩) := by
  refine ⟨by decide, by decide, by decide, by decide, by decide, ?_⟩
  exact (c1_for_loop_semantics (fun _ _ st' => (st', none)) "i" (Json.num 0) (Json.num 4)
    (Json.num 1) [] [] ⟨[], ⟨0, 0⟩⟩ 0 4 1 (by decide) (by decide) (by decide) (by decide)
    (by decide)).1

/-- A successful coordinate evaluation does not depend on the diagnostic
field label. -/
theorem evalIntExpr_ok_field {raw : Option Json} {scope : Scope} {f : String} {n : Int}
    (h : evalIntExpr raw scope f = .ok n) : ∀ g, evalIntExpr raw scope g = .ok n := by
  intro g
  cases raw with
  | none => simp [evalIntExpr] at h
  | some j =>
    cases j with
    | num m => simpa [evalIntExpr] using h
    | str s =>
      by_cases he : strTrim s = ""
      · simp [evalIntExpr, he] at h
      · simp only [evalIntExpr, he, if_neg he] at h ⊢
        cases hev : evaluateIntegerExpression (strTrim s) scope with
        | ok m => rw [hev] at h; simpa using h
        | error e => rw [hev] at h; simp at h
    | bool b => simp [evalIntExpr] at h
    | null => simp [evalIntExpr] at h
    | arr xs => simp [evalIntExpr] at h
    | obj fs => simp [evalIntExpr] at h

/-- A failing coordinate evaluation fails under every diagnostic field
label. -/
theorem evalIntExpr_err_field {raw : Option Json} {scope : Scope} {f : String}
    (h : isOkE (evalIntExpr raw scope f) = false) :
    ∀ g, ∃ e, evalIntExpr raw scope g = .error e := by
  intro g
  cases hev : evalIntExpr raw scope g with
  | ok n =>
    have := evalIntExpr_ok_field hev f
    rw [this] at h
    simp [isOkE] at h
  | error e => exact ⟨e, rfl⟩

/-- Well-formed legacy entries all normalize, one block per entry, each
with a catalog-valid block type over a non-empty catalog. -/
theorem normalizeLegacyBlocksFrom_ok (catalog : List String) :
    ∀ (blocks : List Json) (idx : Nat), (∀ b ∈ blocks, legacyEntryOk b = true) →
      ∃ L, normalizeLegacyBlocksFrom catalog idx blocks = .ok L ∧ L.length = blocks.length ∧
        (catalog ≠ [] → ∀ blk ∈ L, blk.blockType ∈ catalog) := by
  intro blocks
  induction blocks with
  | nil =>
    intro idx _
    exact ⟨[], rfl, rfl, fun _ _ h => absurd h (List.not_mem_nil _)⟩
  | cons b rest ih =>
    intro idx h
    have hb := h b (List.mem_cons_self b rest)
    have hrest := fun x hx => h x (List.mem_cons_of_mem b hx)
    obtain ⟨L', hL', hlen, hmem⟩ := ih (idx + 1) hrest
    simp only [legacyEntryOk, Bool.and_eq_true] at hb
    obtain ⟨⟨⟨hrec, hx⟩, hy⟩, hz⟩ := hb
    obtain ⟨nx, hnx⟩ : ∃ n, evalIntExpr (b.get? "x") [] ("blocks[" ++ toString idx ++ "].x") = .ok n := by
      cases hex : evalIntExpr (b.get? "x") [] "x" with
      | ok n => exact ⟨n, evalIntExpr_ok_field hex _⟩
      | error e => rw [hex] at hx; simp [isOkE] at hx
    obtain ⟨ny, hny⟩ : ∃ n, evalIntExpr (b.get? "y") [] ("blocks[" ++ toString idx ++ "].y") = .ok n := by
      cases hey : evalIntExpr (b.get? "y") [] "y" with
      | ok n => exact ⟨n, evalIntExpr_ok_field hey _⟩
      | error e => rw [hey] at hy; simp [isOkE] at hy
    obtain ⟨nz, hnz⟩ : ∃ n, evalIntExpr (b.get? "z") [] ("blocks[" ++ toString idx ++ "].z") = .ok n := by
      cases hez : evalIntExpr (b.get? "z") [] "z" with
      | ok n => exact ⟨n, evalIntExpr_ok_field hez _⟩
      | error e => rw [hez] at hz; simp [isOkE] at hz
    refine ⟨⟨nx, ny, nz, normalizeBlockType (b.get? "blockType") [] catalog⟩ :: L', ?_, ?_, ?_⟩
    · simp only [normalizeLegacyBlocksFrom, hrec, if_pos, hnx, hny, hnz, hL']
    · simp [hlen]
    · intro hcat blk hblk
      rcases List.mem_cons.mp hblk with h1 | h2
      · rw [h1]
        exact normalizeBlockType_mem _ _ _ hcat
      · exact hmem hcat blk h2

/-- C7: a valid legacy document (array-valued blocks, no compact
fields, every entry well-formed) parses to exactly
min(len(blocks), MAX_BLOCKS) blocks, each with a catalog-valid block
type; and coordinates are evaluated against the empty scope, so a bare
identifier coordinate fails as an unknown variable. -/
theorem c7_legacy_document_shape :
    ∀ (catalog : List String) (fields : List (String × Json)) (blocks : List Json),
      catalog ≠ [] →
      (Json.obj fields).get? "blocks" = some (Json.arr blocks) →
      (Json.obj fields).hasArrayField "steps" = false →
      (Json.obj fields).hasArrayField "defs" = false →
      (∀ b ∈ blocks, legacyEntryOk b = true) →
      (∃ L, parseBlocksFromResponse catalog (Json.obj fields) = .ok L
        ∧ L.length = min blocks.length MAX_BLOCKS
        ∧ (∀ blk ∈ L, blk.blockType ∈ catalog))
      ∧ parseBlocksFromResponse demoCatalog demoLegacyVarDoc =
          .error (ExecErr.exprError "blocks[0].x" "n" (ParseErr.unknownVar "n")) := by
  intro catalog fields blocks hcat hblocks hsteps hdefs hok
  refine ⟨?_, by decide⟩
  obtain ⟨L0, hL0, hlen, hmem⟩ := normalizeLegacyBlocksFrom_ok catalog blocks 0 hok
  refine ⟨L0.take MAX_BLOCKS, ?_, ?_, ?_⟩
  · simp only [parseBlocksFromResponse, Json.isRecord, hsteps, hdefs, Bool.or_self,
      Bool.false_eq_true, if_false, if_true, hblocks, normalizeLegacyBlocks, hL0]
  · simp [List.length_take, hlen, Nat.min_comm]
  · intro blk hblk
    exact hmem hcat blk (List.take_subset MAX_BLOCKS L0 hblk)

/-- Witness for C7 at a two-entry legacy document over the demo
catalog. -/
theorem c7_legacy_document_shape_witness :
    demoCatalog ≠ []
    ∧ (Json.obj [("blocks", Json.arr [Json.obj [("x", Json.num 1), ("y", Json.num 2),
        ("z", Json.num 3), ("blockType", Json.str "Dirt")]])]).hasArrayField "blocks" = true
    ∧ (∃ L, parseBlocksFromResponse demoCatalog
          (Json.obj [("blocks", Json.arr [Json.obj [("x", Json.num 1), ("y", Json.num 2),
            ("z", Json.num 3), ("blockType", Json.str "Dirt")]])]) = .ok L
        ∧ L.length = min 1 MAX_BLOCKS
        ∧ (∀ blk ∈ L, blk.blockType ∈ demoCatalog)) := by
  refine ⟨by decide, rfl, ?_⟩
  exact (c7_legacy_document_shape demoCatalog
    [("blocks", Json.arr [Json.obj [("x", Json.num 1), ("y", Json.num 2), ("z", Json.num 3),
      ("blockType", Json.str "Dirt")]])]
    [Json.obj [("x", Json.num 1), ("y", Json.num 2), ("z", Json.num 3),
      ("blockType", Json.str "Dirt")]]
    (by decide) rfl rfl rfl (by decide)).1

/-- A malformed entry anywhere in the blocks array makes the legacy
normalizer throw, even when every entry before it is well-formed. -/
theorem normalizeLegacyBlocksFrom_err (catalog : List String) (bad : Json) (post : List Json)
    (hbad : legacyEntryOk bad = false) :
    ∀ (pre : List Json) (idx : Nat), (∀ b ∈ pre, legacyEntryOk b = true) →
      ∃ e, normalizeLegacyBlocksFrom catalog idx (pre ++ bad :: post) = .error e := by
  intro pre
  induction pre with
  | nil =>
    intro idx _
    simp only [legacyEntryOk, Bool.and_eq_true] at hbad
    by_cases hrec : bad.isRecord = true
    · simp only [List.nil_append, normalizeLegacyBlocksFrom, hrec, if_pos]
      by_cases hx : isOkE (evalIntExpr (bad.get? "x") [] "x") = true
      · by_cases hy : isOkE (evalIntExpr (bad.get? "y") [] "y") = true
        · by_cases hz : isOkE (evalIntExpr (bad.get? "z") [] "z") = true
          · exfalso
            rw [hrec, hx, hy, hz] at hbad
            simp at hbad
          · obtain ⟨e, he⟩ := evalIntExpr_err_field (Bool.eq_false_iff.mpr hz)
              ("blocks[" ++ toString idx ++ "].z")
            obtain ⟨nx, hnx⟩ : ∃ n, evalIntExpr (bad.get? "x") [] ("blocks[" ++ toString idx ++ "].x") = .ok n := by
              cases hex : evalIntExpr (bad.get? "x") [] "x" with
              | ok n => exact ⟨n, evalIntExpr_ok_field hex _⟩
              | error e' => rw [hex] at hx; simp [isOkE] at hx
            obtain ⟨ny, hny⟩ : ∃ n, evalIntExpr (bad.get? "y") [] ("blocks[" ++ toString idx ++ "].y") = .ok n := by
              cases hey : evalIntExpr (bad.get? "y") [] "y" with
              | ok n => exact ⟨n, evalIntExpr_ok_field hey _⟩
              | error e' => rw [hey] at hy; simp [isOkE] at hy
            exact ⟨e, by rw [hnx, hny, he]⟩
        · obtain ⟨e, he⟩ := evalIntExpr_err_field (Bool.eq_false_iff.mpr hy)
            ("blocks[" ++ toString idx ++ "].y")
          obtain ⟨nx, hnx⟩ : ∃ n, evalIntExpr (bad.get? "x") [] ("blocks[" ++ toString idx ++ "].x") = .ok n := by
            cases hex : evalIntExpr (bad.get? "x") [] "x" with
            | ok n => exact ⟨n, evalIntExpr_ok_field hex _⟩
            | error e' => rw [hex] at hx; simp [isOkE] at hx
          exact ⟨e, by rw [hnx, he]⟩
      · obtain ⟨e, he⟩ := evalIntExpr_err_field (Bool.eq_false_iff.mpr hx)
          ("blocks[" ++ toString idx ++ "].x")
        exact ⟨e, by rw [he]⟩
    · refine ⟨.legacyNotObject idx, ?_⟩
      simp only [List.nil_append, normalizeLegacyBlocksFrom]
      rw [if_neg hrec]
  | cons p pre' ih =>
    intro idx hpre
    have hp := hpre p (List.mem_cons_self p pre')
    simp only [legacyEntryOk, Bool.and_eq_true] at hp
    obtain ⟨⟨⟨hrec, hx⟩, hy⟩, hz⟩ := hp
    obtain ⟨e, he⟩ := ih (idx + 1) (fun x hx' => hpre x (List.mem_cons_of_mem p hx'))
    obtain ⟨nx, hnx⟩ : ∃ n, evalIntExpr (p.get? "x") [] ("blocks[" ++ toString idx ++ "].x") = .ok n := by
      cases hex : evalIntExpr (p.get? "x") [] "x" with
      | ok n => exact ⟨n, evalIntExpr_ok_field hex _⟩
      | error e' => rw [hex] at hx; simp [isOkE] at hx
    obtain ⟨ny, hny⟩ : ∃ n, evalIntExpr (p.get? "y") [] ("blocks[" ++ toString idx ++ "].y") = .ok n := by
      cases hey : evalIntExpr (p.get? "y") [] "y" with
      | ok n => exact ⟨n, evalIntExpr_ok_field hey _⟩
      | error e' => rw [hey] at hy; simp [isOkE] at hy
    obtain ⟨nz, hnz⟩ : ∃ n, evalIntExpr (p.get? "z") [] ("blocks[" ++ toString idx ++ "].z") = .ok n := by
      cases hez : evalIntExpr (p.get? "z") [] "z" with
      | ok n => exact ⟨n, evalIntExpr_ok_field hez _⟩
      | error e' => rw [hez] at hz; simp [isOkE] at hz
    refine ⟨e, ?_⟩
    rw [List.cons_append]
    simp only [normalizeLegacyBlocksFrom, hrec, if_pos, hnx, hny, hnz, he]

/-- C10: legacy parsing validates and evaluates every entry before the
cap truncation is applied: a blocks array whose first MAX_BLOCKS entries
are valid but which contains a malformed entry at an index at or beyond
the cap makes parseBlocksFromResponse throw instead of returning the
truncated valid prefix. -/
theorem c10_legacy_validates_past_cap :
    ∀ (catalog : List String) (fields : List (String × Json)) (pre : List Json) (bad : Json)
      (post : List Json),
      (Json.obj fields).get? "blocks" = some (Json.arr (pre ++ bad :: post)) →
      (Json.obj fields).hasArrayField "steps" = false →
      (Json.obj fields).hasArrayField "defs" = false →
      MAX_BLOCKS ≤ pre.length →
      (∀ b ∈ pre, legacyEntryOk b = true) →
      legacyEntryOk bad = false →
      ∃ e, parseBlocksFromResponse catalog (Json.obj fields) = .error e := by
  intro catalog fields pre bad post hblocks hsteps hdefs _ hpre hbad
  obtain ⟨e, he⟩ := normalizeLegacyBlocksFrom_err catalog bad post hbad pre 0 hpre
  refine ⟨e, ?_⟩
  simp only [parseBlocksFromResponse, Json.isRecord, hsteps, hdefs, Bool.or_self,
    Bool.false_eq_true, if_false, if_true, hblocks, normalizeLegacyBlocks, he]

/-- Witness for C10: ten thousand valid entries followed by one
malformed entry still make the whole legacy parse throw. -/
theorem c10_legacy_validates_past_cap_witness :
    (Json.obj [("blocks", Json.arr (List.replicate 10000
        (Json.obj [("x", Json.num 0), ("y", Json.num 0), ("z", Json.num 0)]) ++
          [Json.num 3]))]).get? "blocks" = some (Json.arr (List.replicate 10000
        (Json.obj [("x", Json.num 0), ("y", Json.num 0), ("z", Json.num 0)]) ++
          [Json.num 3]))
    ∧ MAX_BLOCKS ≤ (List.replicate 10000
        (Json.obj [("x", Json.num 0), ("y", Json.num 0), ("z", Json.num 0)])).length
    ∧ legacyEntryOk (Json.num 3) = false
    ∧ ∃ e, parseBlocksFromResponse []
        (Json.obj [("blocks", Json.arr (List.replicate 10000
          (Json.obj [("x", Json.num 0), ("y", Json.num 0), ("z", Json.num 0)]) ++
            [Json.num 3]))]) = .error e := by
  refine ⟨rfl, by rw [List.length_replicate]; decide, by decide, ?_⟩
  exact c10_legacy_validates_past_cap []
    [("blocks", Json.arr (List.replicate 10000
      (Json.obj [("x", Json.num 0), ("y", Json.num 0), ("z", Json.num 0)]) ++ [Json.num 3]))]
    (List.replicate 10000 (Json.obj [("x", Json.num 0), ("y", Json.num 0), ("z", Json.num 0)]))
    (Json.num 3) []
    rfl rfl rfl (by rw [List.length_replicate]; decide)
    (fun b hb => by rw [List.eq_of_mem_replicate hb]; decide)
    (by decide)

/-- Witness for C5: a document whose compact steps contain a non-object
step but which carries a legacy blocks array falls back to the legacy
parse. -/
theorem c5_dual_format_dispatch_witness :
    ((Json.obj [("steps", Json.arr [Json.num 7]), ("blocks", Json.arr [Json.obj [("x", Json.num 1),
        ("y", Json.num 1), ("z", Json.num 1), ("blockType", Json.str "stone")]])]).hasArrayField
          "steps" ||
      (Json.obj [("steps", Json.arr [Json.num 7]), ("blocks", Json.arr [Json.obj [("x", Json.num 1),
        ("y", Json.num 1), ("z", Json.num 1), ("blockType", Json.str "stone")]])]).hasArrayField
          "defs") = true
    ∧ expandCompactProgram demoCatalog (Json.obj [("steps", Json.arr [Json.num 7]),
        ("blocks", Json.arr [Json.obj [("x", Json.num 1), ("y", Json.num 1), ("z", Json.num 1),
          ("blockType", Json.str "stone")]])]) = .error ExecErr.stepNotObject
    ∧ parseBlocksFromResponse demoCatalog (Json.obj [("steps", Json.arr [Json.num 7]),
        ("blocks", Json.arr [Json.obj [("x", Json.num 1), ("y", Json.num 1), ("z", Json.num 1),
          ("blockType", Json.str "stone")]])]) =
        (match normalizeLegacyBlocks demoCatalog [Json.obj [("x", Json.num 1), ("y", Json.num 1),
            ("z", Json.num 1), ("blockType", Json.str "stone")]] with
         | .ok l => .ok (l.take MAX_BLOCKS)
         | .error e2 => .error e2) := by
  refine ⟨by decide, by decide, ?_⟩
  exact (c5_dual_format_dispatch demoCatalog [("steps", Json.arr [Json.num 7]),
      ("blocks", Json.arr [Json.obj [("x", Json.num 1), ("y", Json.num 1), ("z", Json.num 1),
        ("blockType", Json.str "stone")]])]).2.1 ExecErr.stepNotObject
    [Json.obj [("x", Json.num 1), ("y", Json.num 1), ("z", Json.num 1),
      ("blockType", Json.str "stone")]]
    (by decide) (by decide) rfl

/-- C9 counterexample: when arithmetic evaluation of a string argument
fails, the code passes the trimmed text through, not the raw string
unchanged, and an all-whitespace string argument is an error rather than
a passthrough. -/
theorem c9_raw_passthrough_counterexample :
    evalCallArgValue (Json.str " oak planks ") [] "f" = .ok (ScopeValue.str "oak planks")
    ∧ coerceArgClaim (Json.str " oak planks ") [] = some (ScopeValue.str " oak planks ")
    ∧ ScopeValue.str "oak planks" ≠ ScopeValue.str " oak planks "
    ∧ evalCallArgValue (Json.str " ") [] "f" = .error (ExecErr.argEmpty "f")
    ∧ coerceArgClaim (Json.str " ") [] = some (ScopeValue.str " ") := by
  decide

/-- C9 amended: call-argument coercion follows the exact fallback order
with trimming made explicit: numbers truncate; other non-strings are
errors; a string is trimmed, an empty result is an error, a trimmed bare
identifier bound in the caller's scope passes its binding through
unevaluated, otherwise arithmetic evaluation is attempted and, failing
that, the trimmed string is passed through. -/
theorem c9_call_argument_coercion_amended :
    ∀ (raw : Json) (scope : Scope) (field : String),
      evalCallArgValue raw scope field = coerceArgSpec raw scope field := by
  intro raw scope field
  cases raw with
  | num n => rfl
  | bool b => rfl
  | null => rfl
  | arr xs => rfl
  | obj fs => rfl
  | str s =>
    simp only [evalCallArgValue, coerceArgSpec]
    by_cases ht : strTrim s = ""
    · simp [ht]
    · simp only [ht, if_neg ht]
      by_cases hid : isIdentString (strTrim s) = true
      · cases hl : List.lookup (strTrim s) scope with
        | none => simp [hid, hl]
        | some v => simp [hid, hl]
      · have hid' : isIdentString (strTrim s) = false := Bool.eq_false_iff.mpr hid
        simp [hid']

/-- Expression-field evaluation never raises a budget or gas error. -/
theorem evalIntExpr_err_not_budget {raw : Option Json} {scope : Scope} {f : String} {e : ExecErr}
    (h : evalIntExpr raw scope f = .error e) :
    e ≠ ExecErr.stepBudgetExceeded ∧ e ≠ ExecErr.callBudgetExceeded ∧ e ≠ ExecErr.gasExhausted := by
  cases raw with
  | none => cases h; simp
  | some j =>
    cases j with
    | num n => cases h
    | bool b => cases h; simp
    | null => cases h; simp
    | arr xs => cases h; simp
    | obj fs => cases h; simp
    | str s =>
      simp only [evalIntExpr] at h
      by_cases ht : strTrim s = ""
      · rw [if_pos ht] at h
        cases h; simp
      · rw [if_neg ht] at h
        cases hev : evaluateIntegerExpression (strTrim s) scope with
        | ok n => rw [hev] at h; cases h
        | error pe => rw [hev] at h; cases h; simp

/-- Call-argument coercion never raises a budget or gas error. -/
theorem evalCallArgValue_err_not_budget {raw : Json} {scope : Scope} {f : String} {e : ExecErr}
    (h : evalCallArgValue raw scope f = .error e) :
    e ≠ ExecErr.stepBudgetExceeded ∧ e ≠ ExecErr.callBudgetExceeded ∧ e ≠ ExecErr.gasExhausted := by
  cases raw with
  | num n => cases h
  | bool b => cases h; simp
  | null => cases h; simp
  | arr xs => cases h; simp
  | obj fs => cases h; simp
  | str s =>
    simp only [evalCallArgValue] at h
    by_cases ht : strTrim s = ""
    · rw [if_pos ht] at h
      cases h; simp
    · rw [if_neg ht] at h
      cases hl : (if isIdentString (strTrim s) = true then List.lookup (strTrim s) scope
          else none) with
      | some v => rw [hl] at h; cases h
      | none =>
        rw [hl] at h
        cases hev : evaluateIntegerExpression (strTrim s) scope with
        | ok n => rw [hev] at h; cases h
        | error pe => rw [hev] at h; cases h

/-- Error propagation through a monadic fold. -/
theorem exceptFoldlM_err {α β : Type} (P : ExecErr → Prop) (F : β → α → Except ExecErr β)
    (hF : ∀ b a e, F b a = .error e → P e) :
    ∀ (l : List α) (b : β) (e : ExecErr), List.foldlM F b l = .error e → P e := by
  intro l
  induction l with
  | nil =>
    intro b e h
    simp only [List.foldlM] at h
    cases h
  | cons a l ih =>
    intro b e h
    rw [List.foldlM_cons] at h
    cases hF' : F b a with
    | error e' =>
      rw [hF'] at h
      cases h
      exact hF b a e hF'
    | ok b' =>
      rw [hF'] at h
      exact ih b' e h

/-- One declared-parameter coercion step never raises a budget or gas
error. -/
theorem buildArgParamF_err {rawArgs : List (String × Json)} {scope : Scope} {name key : String}
    {acc : Scope} {e : ExecErr}
    (h : (if key = "" then Except.ok acc
          else match List.lookup key rawArgs with
            | none => Except.error (ExecErr.missingArg key name)
            | some v =>
              match evalCallArgValue v scope ("call." ++ name ++ ".args." ++ key) with
              | Except.error e2 => Except.error e2
              | Except.ok sv => Except.ok ((key, sv) :: acc)) = Except.error e) :
    e ≠ ExecErr.stepBudgetExceeded ∧ e ≠ ExecErr.callBudgetExceeded ∧ e ≠ ExecErr.gasExhausted := by
  by_cases hk : key = ""
  · rw [if_pos hk] at h; cases h
  · rw [if_neg hk] at h
    split at h
    · cases h; simp
    · split at h
      · cases h
        exact evalCallArgValue_err_not_budget (by assumption)
      · cases h

/-- One free-form argument coercion step never raises a budget or gas
error. -/
theorem buildArgFreeF_err {scope : Scope} {name : String} {kv : String × Json} {acc : Scope}
    {e : ExecErr}
    (h : (match evalCallArgValue kv.2 scope ("call." ++ name ++ ".args." ++ kv.1) with
          | Except.error e2 => Except.error e2
          | Except.ok sv => Except.ok ((kv.1, sv) :: acc)) = Except.error e) :
    e ≠ ExecErr.stepBudgetExceeded ∧ e ≠ ExecErr.callBudgetExceeded ∧ e ≠ ExecErr.gasExhausted := by
  split at h
  · cases h
    exact evalCallArgValue_err_not_budget (by assumption)
  · cases h

/-- Argument-scope construction never raises a budget or gas error. -/
theorem buildCallArgs_err_not_budget {d : Json} {rawArgs : List (String × Json)} {scope : Scope}
    {name : String} {e : ExecErr} (h : buildCallArgs d rawArgs scope name = .error e) :
    e ≠ ExecErr.stepBudgetExceeded ∧ e ≠ ExecErr.callBudgetExceeded ∧ e ≠ ExecErr.gasExhausted := by
  unfold buildCallArgs at h
  split at h
  · refine exceptFoldlM_err (fun e => e ≠ ExecErr.stepBudgetExceeded ∧
      e ≠ ExecErr.callBudgetExceeded ∧ e ≠ ExecErr.gasExhausted) _ ?_ _ _ _ h
    intro b a e' hF
    exact buildArgParamF_err hF
  · refine exceptFoldlM_err (fun e => e ≠ ExecErr.stepBudgetExceeded ∧
      e ≠ ExecErr.callBudgetExceeded ∧ e ≠ ExecErr.gasExhausted) _ ?_ _ _ _ h
    intro b a e' hF
    exact buildArgFreeF_err hF

/-- Place-step normalization never raises a budget or gas error. -/
theorem normalizeCompactBlock_err_not_budget {step : Json} {scope : Scope}
    {catalog : List String} {e : ExecErr}
    (h : normalizeCompactBlock step scope catalog = .error e) :
    e ≠ ExecErr.stepBudgetExceeded ∧ e ≠ ExecErr.callBudgetExceeded ∧ e ≠ ExecErr.gasExhausted := by
  unfold normalizeCompactBlock at h
  cases hx : evalIntExpr (step.get? "x") scope "place.x" with
  | error e' => rw [hx] at h; cases h; exact evalIntExpr_err_not_budget hx
  | ok nx =>
    rw [hx] at h
    cases hy : evalIntExpr (step.get? "y") scope "place.y" with
    | error e' => rw [hy] at h; cases h; exact evalIntExpr_err_not_budget hy
    | ok ny =>
      rw [hy] at h
      cases hz : evalIntExpr (step.get? "z") scope "place.z" with
      | error e' => rw [hz] at h; cases h; exact evalIntExpr_err_not_budget hz
      | ok nz => rw [hz] at h; cases h

/-- Constructor for the budget invariant when the result is not a
budget error. -/
theorem budgetInv_mk {st : ExecState} {r : StepResult}
    (hes : st.budget.executedSteps ≤ r.1.budget.executedSteps)
    (hcs : st.budget.calls ≤ r.1.budget.calls)
    (hesb : r.2 ≠ some ExecErr.stepBudgetExceeded)
    (hcsb : r.2 ≠ some ExecErr.callBudgetExceeded)
    (hesle : st.budget.executedSteps ≤ MAX_EXECUTED_STEPS →
      r.1.budget.executedSteps ≤ MAX_EXECUTED_STEPS)
    (hcsle : st.budget.calls ≤ MAX_CALLS → r.1.budget.calls ≤ MAX_CALLS) :
    BudgetInv st r :=
  ⟨hes, hcs,
   fun hb => ⟨fun hh => absurd hh hesb, fun _ => hesle hb⟩,
   fun hb => ⟨fun hh => absurd hh hcsb, fun _ => hcsle hb⟩⟩

/-- The budget invariant for a result that leaves the state unchanged. -/
theorem budgetInv_same (st : ExecState) (e? : Option ExecErr)
    (h1 : e? ≠ some ExecErr.stepBudgetExceeded) (h2 : e? ≠ some ExecErr.callBudgetExceeded) :
    BudgetInv st (st, e?) :=
  budgetInv_mk (le_refl _) (le_refl _) h1 h2 (fun hb => hb) (fun hb => hb)

/-- The budget invariant composes along a successful first stage. -/
theorem budgetInv_trans {st0 st1 : ExecState} {r : StepResult}
    (h1 : BudgetInv st0 (st1, Option.none)) (h2 : BudgetInv st1 r) : BudgetInv st0 r := by
  obtain ⟨m1, c1, es1, cs1⟩ := h1
  obtain ⟨m2, c2, es2, cs2⟩ := h2
  refine ⟨le_trans m1 m2, le_trans c1 c2, ?_, ?_⟩
  · intro hb
    exact es2 ((es1 hb).2 (by simp))
  · intro hb
    exact cs2 ((cs1 hb).2 (by simp))

/-- The stride evaluation of a for step never raises a budget or gas
error. -/
theorem strideEval_err_not_budget {step : Json} {scope : Scope} {e : ExecErr}
    (h : (match step.get? "step" with
          | none => Except.ok 1
          | some v => evalIntExpr (some v) scope "for.step") = .error e) :
    e ≠ ExecErr.stepBudgetExceeded ∧ e ≠ ExecErr.callBudgetExceeded ∧ e ≠ ExecErr.gasExhausted := by
  cases hs : step.get? "step" with
  | none => rw [hs] at h; cases h
  | some v => rw [hs] at h; exact evalIntExpr_err_not_budget h

/-- The for-loop body iteration preserves the budget invariant. -/
theorem forLoopWith_budgetInv (runBody : Scope → ExecState → StepResult)
    (h : ∀ sc st, BudgetInv st (runBody sc st)) (v : String) (scope : Scope) :
    ∀ (iters : List Int) (st : ExecState), BudgetInv st (forLoopWith runBody v scope iters st) := by
  intro iters
  induction iters with
  | nil =>
    intro st
    exact budgetInv_same st none (by simp) (by simp)
  | cons i rest ih =>
    intro st
    have hrb := h ((v, ScopeValue.int i) :: scope) st
    simp only [forLoopWith]
    cases hr : runBody ((v, ScopeValue.int i) :: scope) st with
    | mk st' e? =>
      rw [hr] at hrb
      cases e? with
      | some e => exact hrb
      | none =>
        show BudgetInv st (if MAX_BLOCKS ≤ st'.out.length then (st', none)
          else forLoopWith runBody v scope rest st')
        by_cases hcap : MAX_BLOCKS ≤ st'.out.length
        · rw [if_pos hcap]
          exact hrb
        · rw [if_neg hcap]
          exact budgetInv_trans hrb (ih st')

/-- Executing a for step preserves the budget invariant whenever its
body runner does. -/
theorem executeForStep_budgetInv (run : Runner) (step : Json) (scope : Scope)
    (h : ∀ steps sc st, BudgetInv st (run steps sc st)) :
    ∀ st : ExecState, BudgetInv st (executeForStep run step scope st) := by
  intro st
  simp only [executeForStep]
  split
  · exact budgetInv_same _ _ (by simp) (by simp)
  · split
    · obtain ⟨h1, h2, _⟩ := evalIntExpr_err_not_budget (by assumption)
      exact budgetInv_same _ _ (by simpa using h1) (by simpa using h2)
    · split
      · obtain ⟨h1, h2, _⟩ := evalIntExpr_err_not_budget (by assumption)
        exact budgetInv_same _ _ (by simpa using h1) (by simpa using h2)
      · split
        · obtain ⟨h1, h2, _⟩ := strideEval_err_not_budget (by assumption)
          exact budgetInv_same _ _ (by simpa using h1) (by simpa using h2)
        · split
          · exact budgetInv_same _ _ (by simp) (by simp)
          · split
            · exact forLoopWith_budgetInv _ (fun sc st' => h _ sc st') _ _ _ _
            · exact budgetInv_same _ _ (by simp) (by simp)

/-- The budget invariant after the call counter increment, for results
that are not budget errors. -/
theorem budgetInv_callInc (st : ExecState) (e? : Option ExecErr)
    (hg : st.budget.calls + 1 ≤ MAX_CALLS)
    (h1 : e? ≠ some ExecErr.stepBudgetExceeded) (h2 : e? ≠ some ExecErr.callBudgetExceeded) :
    BudgetInv st ({st with budget := {st.budget with calls := st.budget.calls + 1}}, e?) :=
  budgetInv_mk (le_refl _) (Nat.le_succ _) h1 h2 (fun hb => hb) (fun _ => hg)

/-- Executing a call step preserves the budget invariant whenever the
callee runner does: the call counter grows by exactly one before
anything else, and the call ceiling error fires exactly at the ceiling
plus one. -/
theorem executeCallStep_budgetInv (run : Runner) (defs : Defs) (step : Json) (scope : Scope)
    (h : ∀ steps sc st, BudgetInv st (run steps sc st)) :
    ∀ st : ExecState, BudgetInv st (executeCallStep run defs step scope st) := by
  intro st
  simp only [executeCallStep]
  split
  · rename_i hg
    have hg' : MAX_CALLS < st.budget.calls + 1 := hg
    refine ⟨le_refl _, Nat.le_succ _, ?_, ?_⟩
    · intro hb
      refine ⟨fun hh => absurd hh (by simp), fun _ => hb⟩
    · intro hb
      refine ⟨fun _ => ?_, fun hne => absurd rfl hne⟩
      show st.budget.calls + 1 = MAX_CALLS + 1
      omega
  · rename_i hg
    have hg' : st.budget.calls + 1 ≤ MAX_CALLS := by
      have : ¬ MAX_CALLS < st.budget.calls + 1 := hg
      omega
    split
    · exact budgetInv_callInc st _ hg' (by simp) (by simp)
    · split
      · exact budgetInv_callInc st _ hg' (by simp) (by simp)
      · split
        · split
          · obtain ⟨h1, h2, _⟩ := buildCallArgs_err_not_budget (by assumption)
            exact budgetInv_callInc st _ hg' (by simpa using h1) (by simpa using h2)
          · exact budgetInv_trans (budgetInv_callInc st none hg' (by simp) (by simp))
              (h _ _ _)
        · exact budgetInv_callInc st _ hg' (by simp) (by simp)

/-- The step loop preserves the budget invariant whenever the nested
runner does: the executed-step counter grows by exactly one per dequeued
step and the step ceiling error fires exactly at the ceiling plus one. -/
theorem executeStepsLoop_budgetInv (run : Runner) (catalog : List String) (defs : Defs)
    (scope : Scope) (h : ∀ steps sc st, BudgetInv st (run steps sc st)) :
    ∀ (steps : List Json) (st : ExecState),
      BudgetInv st (executeStepsLoop run catalog defs scope steps st) := by
  intro steps
  induction steps with
  | nil =>
    intro st
    exact budgetInv_same st none (by simp) (by simp)
  | cons rawStep rest ih =>
    intro st
    simp only [executeStepsLoop]
    split
    · exact budgetInv_same st none (by simp) (by simp)
    · split
      · rename_i hcap hbud
        have hbud' : MAX_EXECUTED_STEPS < st.budget.executedSteps + 1 := hbud
        refine ⟨Nat.le_succ _, le_refl _, ?_, ?_⟩
        · intro hb
          refine ⟨fun _ => ?_, fun hne => absurd rfl hne⟩
          show st.budget.executedSteps + 1 = MAX_EXECUTED_STEPS + 1
          omega
        · intro hb
          exact ⟨fun hh => absurd hh (by simp), fun _ => hb⟩
      · rename_i hcap hbud
        have hg : st.budget.executedSteps + 1 ≤ MAX_EXECUTED_STEPS := by
          have hx : ¬ MAX_EXECUTED_STEPS < st.budget.executedSteps + 1 := hbud
          omega
        have hInc : ∀ (e? : Option ExecErr), e? ≠ some ExecErr.stepBudgetExceeded →
            e? ≠ some ExecErr.callBudgetExceeded →
            BudgetInv st
              ({st with budget := {st.budget with
                  executedSteps := st.budget.executedSteps + 1}}, e?) :=
          fun e? h1 h2 =>
            budgetInv_mk (Nat.le_succ _) (le_refl _) h1 h2 (fun _ => hg) (fun hb => hb)
        split
        · split
          · split
            · obtain ⟨h1, h2, _⟩ := normalizeCompactBlock_err_not_budget (by assumption)
              exact hInc _ (by simpa using h1) (by simpa using h2)
            · refine budgetInv_trans ?_ (ih _)
              exact budgetInv_mk (Nat.le_succ _) (le_refl _) (by simp) (by simp)
                (fun _ => hg) (fun hb => hb)
          · split
            · split
              · rename_i st2 e heq
                have hfs := executeForStep_budgetInv run rawStep scope h
                  ({st with budget := {st.budget with
                    executedSteps := st.budget.executedSteps + 1}})
                rw [heq] at hfs
                exact budgetInv_trans (hInc none (by simp) (by simp)) hfs
              · rename_i st2 heq
                have hfs := executeForStep_budgetInv run rawStep scope h
                  ({st with budget := {st.budget with
                    executedSteps := st.budget.executedSteps + 1}})
                rw [heq] at hfs
                exact budgetInv_trans (hInc none (by simp) (by simp))
                  (budgetInv_trans hfs (ih st2))
            · split
              · split
                · rename_i st2 e heq
                  have hcs := executeCallStep_budgetInv run defs rawStep scope h
                    ({st with budget := {st.budget with
                      executedSteps := st.budget.executedSteps + 1}})
                  rw [heq] at hcs
                  exact budgetInv_trans (hInc none (by simp) (by simp)) hcs
                · rename_i st2 heq
                  have hcs := executeCallStep_budgetInv run defs rawStep scope h
                    ({st with budget := {st.budget with
                      executedSteps := st.budget.executedSteps + 1}})
                  rw [heq] at hcs
                  exact budgetInv_trans (hInc none (by simp) (by simp))
                    (budgetInv_trans hcs (ih st2))
              · exact hInc _ (by simp) (by simp)
        · exact hInc _ (by simp) (by simp)

/-- The whole interpreter preserves the budget invariant. -/
theorem executeSteps_budgetInv (catalog : List String) (defs : Defs) :
    ∀ (gas callDepth : Nat) (steps : List Json) (scope : Scope) (st : ExecState),
      BudgetInv st (executeSteps catalog defs gas callDepth steps scope st) := by
  intro gas
  induction gas with
  | zero =>
    intro d steps scope st
    simp only [executeSteps]
    split
    · exact budgetInv_same st _ (by simp) (by simp)
    · exact budgetInv_same st _ (by simp) (by simp)
  | succ gas ih =>
    intro d steps scope st
    simp only [executeSteps]
    split
    · exact budgetInv_same st _ (by simp) (by simp)
    · exact executeStepsLoop_budgetInv _ catalog defs scope
        (fun s sc st' => ih (d + 1) s sc st') steps st

/-- C3: throughout every expansion both budget counters are monotonically
non-decreasing; starting within the ceilings, the step-ceiling error is
raised exactly when executedSteps reaches 50001 (the instant it exceeds
50000) and any run that does not raise it stays within the ceiling, and
likewise for the call ceiling at 501; the executedSteps counter is
incremented exactly once per dequeued step, before the step's kind is
even inspected (a non-object or over-budget step still pays for its
dequeue); and the calls counter is incremented exactly once per call
step, before the callee name is resolved (an undefined callee still pays
for the call). -/
theorem c3_budget_counters :
    (∀ (catalog : List String) (defs : Defs) (gas callDepth : Nat) (steps : List Json)
        (scope : Scope) (st : ExecState),
        BudgetInv st (executeSteps catalog defs gas callDepth steps scope st))
    ∧ (∀ (run : Runner) (catalog : List String) (defs : Defs) (scope : Scope)
        (rawStep : Json) (rest : List Json) (st : ExecState),
        ¬ MAX_BLOCKS ≤ st.out.length → MAX_EXECUTED_STEPS < st.budget.executedSteps + 1 →
        executeStepsLoop run catalog defs scope (rawStep :: rest) st =
          ({st with budget := {st.budget with
              executedSteps := st.budget.executedSteps + 1}},
           some ExecErr.stepBudgetExceeded))
    ∧ (∀ (run : Runner) (defs : Defs) (step : Json) (scope : Scope) (st : ExecState)
        (n : String),
        strTrim (jsToString (step.fieldCoalesce "name" (Json.str ""))) = n → n ≠ "" →
        List.lookup n defs = none → st.budget.calls + 1 ≤ MAX_CALLS →
        executeCallStep run defs step scope st =
          ({st with budget := {st.budget with calls := st.budget.calls + 1}},
           some (ExecErr.undefinedFunction n))) := by
  refine ⟨executeSteps_budgetInv, ?_, ?_⟩
  · intro run catalog defs scope rawStep rest st hcap hbud
    have hbud' : MAX_EXECUTED_STEPS <
        ({st with budget := {st.budget with
          executedSteps := st.budget.executedSteps + 1}} : ExecState).budget.executedSteps :=
      hbud
    simp only [executeStepsLoop]
    rw [if_neg hcap, if_pos hbud']
  · intro run defs step scope st n hname hne hlook hg
    have hgc : ¬ MAX_CALLS <
        ({st with budget := {st.budget with calls := st.budget.calls + 1}} :
          ExecState).budget.calls := by
      show ¬ MAX_CALLS < st.budget.calls + 1
      omega
    simp only [executeCallStep, hname]
    rw [if_neg hgc, if_neg hne, hlook]

/-- Witness for C3 at a concrete empty run, a concrete over-budget
state, and a concrete unresolvable call. -/
theorem c3_budget_counters_witness :
    BudgetInv ⟨[], ⟨0, 0⟩⟩ (executeSteps demoCatalog [] 25 0 [] [] ⟨[], ⟨0, 0⟩⟩)
    ∧ executeStepsLoop (fun _ _ st => (st, none)) demoCatalog [] []
        [Json.obj [("op", Json.str "place")]] ⟨[], ⟨50000, 0⟩⟩ =
        (⟨[], ⟨50001, 0⟩⟩, some ExecErr.stepBudgetExceeded)
    ∧ executeCallStep (fun _ _ st => (st, none)) [] (Json.obj [("op", Json.str "call"),
        ("name", Json.str "nope")]) [] ⟨[], ⟨0, 0⟩⟩ =
        (⟨[], ⟨0, 1⟩⟩, some (ExecErr.undefinedFunction "nope")) := by
  refine ⟨c3_budget_counters.1 demoCatalog [] 25 0 [] [] ⟨[], ⟨0, 0⟩⟩, ?_, ?_⟩
  · exact c3_budget_counters.2.1 (fun _ _ st => (st, none)) demoCatalog [] []
      (Json.obj [("op", Json.str "place")]) [] ⟨[], ⟨50000, 0⟩⟩
      (by decide) (by decide)
  · exact c3_budget_counters.2.2 (fun _ _ st => (st, none)) []
      (Json.obj [("op", Json.str "call"), ("name", Json.str "nope")]) [] ⟨[], ⟨0, 0⟩⟩
      "nope" (by decide) (by decide) rfl (by decide)

/-- The for-loop body iteration never surfaces the gas bookkeeping
device if its body runner does not. -/
theorem forLoopWith_no_gas (runBody : Scope → ExecState → StepResult)
    (h : ∀ sc st, (runBody sc st).2 ≠ some ExecErr.gasExhausted) (v : String) (scope : Scope) :
    ∀ (iters : List Int) (st : ExecState),
      (forLoopWith runBody v scope iters st).2 ≠ some ExecErr.gasExhausted := by
  intro iters
  induction iters with
  | nil => intro st; simp [forLoopWith]
  | cons i rest ih =>
    intro st
    simp only [forLoopWith]
    cases hr : runBody ((v, ScopeValue.int i) :: scope) st with
    | mk st' e? =>
      have hh := h ((v, ScopeValue.int i) :: scope) st
      rw [hr] at hh
      cases e? with
      | some e => exact hh
      | none =>
        show (if MAX_BLOCKS ≤ st'.out.length then (st', none)
          else forLoopWith runBody v scope rest st').2 ≠ some ExecErr.gasExhausted
        by_cases hcap : MAX_BLOCKS ≤ st'.out.length
        · rw [if_pos hcap]; simp
        · rw [if_neg hcap]; exact ih st'

/-- Executing a for step never surfaces the gas device if its body
runner does not. -/
theorem executeForStep_no_gas (run : Runner) (step : Json) (scope : Scope)
    (h : ∀ steps sc st, (run steps sc st).2 ≠ some ExecErr.gasExhausted) :
    ∀ st : ExecState, (executeForStep run step scope st).2 ≠ some ExecErr.gasExhausted := by
  intro st
  simp only [executeForStep]
  split
  · simp
  · split
    · obtain ⟨_, _, h3⟩ := evalIntExpr_err_not_budget (by assumption)
      simpa using h3
    · split
      · obtain ⟨_, _, h3⟩ := evalIntExpr_err_not_budget (by assumption)
        simpa using h3
      · split
        · obtain ⟨_, _, h3⟩ := strideEval_err_not_budget (by assumption)
          simpa using h3
        · split
          · simp
          · split
            · exact forLoopWith_no_gas _ (fun sc st' => h _ sc st') _ _ _ _
            · simp

/-- Executing a call step never surfaces the gas device if the callee
runner does not. -/
theorem executeCallStep_no_gas (run : Runner) (defs : Defs) (step : Json) (scope : Scope)
    (h : ∀ steps sc st, (run steps sc st).2 ≠ some ExecErr.gasExhausted) :
    ∀ st : ExecState, (executeCallStep run defs step scope st).2 ≠ some ExecErr.gasExhausted := by
  intro st
  simp only [executeCallStep]
  split
  · simp
  · split
    · simp
    · split
      · simp
      · split
        · split
          · obtain ⟨_, _, h3⟩ := buildCallArgs_err_not_budget (by assumption)
            simpa using h3
          · exact h _ _ _
        · simp

/-- The step loop never surfaces the gas device if the nested runner
does not. -/
theorem executeStepsLoop_no_gas (run : Runner) (catalog : List String) (defs : Defs)
    (scope : Scope) (h : ∀ steps sc st, (run steps sc st).2 ≠ some ExecErr.gasExhausted) :
    ∀ (steps : List Json) (st : ExecState),
      (executeStepsLoop run catalog defs scope steps st).2 ≠ some ExecErr.gasExhausted := by
  intro steps
  induction steps with
  | nil => intro st; simp [executeStepsLoop]
  | cons rawStep rest ih =>
    intro st
    simp only [executeStepsLoop]
    split
    · simp
    · split
      · simp
      · split
        · split
          · split
            · obtain ⟨_, _, h3⟩ := normalizeCompactBlock_err_not_budget (by assumption)
              simpa using h3
            · exact ih _
          · split
            · split
              · rename_i st2 e heq
                have hfs := executeForStep_no_gas run rawStep scope h
                  ({st with budget := {st.budget with
                    executedSteps := st.budget.executedSteps + 1}})
                rw [heq] at hfs
                exact hfs
              · exact ih _
            · split
              · split
                · rename_i st2 e heq
                  have hcs := executeCallStep_no_gas run defs rawStep scope h
                    ({st with budget := {st.budget with
                      executedSteps := st.budget.executedSteps + 1}})
                  rw [heq] at hcs
                  exact hcs
                · exact ih _
              · simp
        · simp

/-- With at least MAX_CALL_DEPTH + 1 gas units remaining at the current
call depth, the interpreter never surfaces the gas device: the depth
ceiling always fires first. -/
theorem executeSteps_no_gas (catalog : List String) (defs : Defs) :
    ∀ (gas callDepth : Nat), MAX_CALL_DEPTH + 1 ≤ gas + callDepth →
      ∀ (steps : List Json) (scope : Scope) (st : ExecState),
        (executeSteps catalog defs gas callDepth steps scope st).2 ≠
          some ExecErr.gasExhausted := by
  intro gas
  induction gas with
  | zero =>
    intro d hd steps scope st
    have h24 : MAX_CALL_DEPTH < d := by
      simp only [MAX_CALL_DEPTH] at hd ⊢
      omega
    simp [executeSteps, h24]
  | succ gas ih =>
    intro d hd steps scope st
    simp only [executeSteps]
    split
    · simp
    · exact executeStepsLoop_no_gas _ catalog defs scope
        (fun s sc st' => ih (d + 1) (by omega) s sc st') steps st

/-- One defs-collection step never yields the gas device. -/
theorem collectDefF_err {acc : Defs} {rawDef : Json} {nm : String} {e : ExecErr}
    (h : (if rawDef.isRecord then
            (if nm = "" then Except.error ExecErr.defMissingName
             else match rawDef.get? "steps" with
               | some (Json.arr _) => Except.ok ((nm, rawDef) :: acc)
               | _ => Except.error (ExecErr.defMissingSteps nm))
          else Except.error ExecErr.defNotObject) = Except.error e) :
    e ≠ ExecErr.gasExhausted := by
  by_cases hr : rawDef.isRecord
  · rw [if_pos hr] at h
    by_cases hn : nm = ""
    · rw [if_pos hn] at h; cases h; simp
    · rw [if_neg hn] at h
      split at h
      · cases h
      · cases h; simp
  · rw [if_neg hr] at h; cases h; simp

/-- Defs collection never yields the gas device. -/
theorem collectDefs_no_gas {program : Json} {e : ExecErr}
    (h : collectDefs program = .error e) : e ≠ ExecErr.gasExhausted := by
  unfold collectDefs at h
  split at h
  · refine exceptFoldlM_err (fun e => e ≠ ExecErr.gasExhausted) _ ?_ _ _ _ h
    intro b a e' hF
    exact collectDefF_err hF
  · cases h

/-- A top-level expansion never reports the gas bookkeeping device: the
gas supplied by expandCompactProgram always outlasts the depth
ceiling. -/
theorem expandCompactProgram_no_gas (catalog : List String) (program : Json) :
    expandCompactProgram catalog program ≠ .error ExecErr.gasExhausted := by
  unfold expandCompactProgram
  cases hd : collectDefs program with
  | error e =>
    show Except.error e ≠ Except.error ExecErr.gasExhausted
    intro hcontra
    cases hcontra
    exact collectDefs_no_gas hd rfl
  | ok defs =>
    cases hs : program.get? "steps" with
    | none => simp
    | some v =>
      cases v with
      | arr steps =>
        show (match executeSteps catalog defs INTERPRETER_GAS 0 steps [] ⟨[], ⟨0, 0⟩⟩ with
              | (st, none) => Except.ok st.out
              | (_, some e) => Except.error e) ≠ Except.error ExecErr.gasExhausted
        cases hr : executeSteps catalog defs INTERPRETER_GAS 0 steps [] ⟨[], ⟨0, 0⟩⟩ with
        | mk st e? =>
          cases e? with
          | none => simp
          | some e =>
            show Except.error e ≠ Except.error ExecErr.gasExhausted
            intro hcontra
            cases hcontra
            have hng := executeSteps_no_gas catalog defs INTERPRETER_GAS 0
              (by simp [INTERPRETER_GAS]) steps [] ⟨[], ⟨0, 0⟩⟩
            rw [hr] at hng
            exact hng rfl
      | num n => simp
      | str s => simp
      | bool b => simp
      | null => simp
      | obj fs => simp

/-- A derivation leaves a suffix of its input; the factor, term and expr
nonterminals consume at least one token. -/
theorem derivLen {k : DK} {t r : List Token} (h : Deriv k t r) :
    r.length ≤ t.length ∧
      ((k = DK.factor ∨ k = DK.term ∨ k = DK.expr) → r.length < t.length) := by
  induction h with
  | num n r => exact ⟨by simp, fun _ => by simp⟩
  | idnt s r => exact ⟨by simp, fun _ => by simp⟩
  | sign c t r hc hsub ih =>
    refine ⟨by simp; omega, fun _ => by simp; omega⟩
  | paren t r hsub ih =>
    obtain ⟨h1, _⟩ := ih
    refine ⟨by simp at h1 ⊢; omega, fun _ => by simp at h1 ⊢; omega⟩
  | term t m r hf ht ihf iht =>
    obtain ⟨hf1, hf2⟩ := ihf
    obtain ⟨ht1, _⟩ := iht
    have hf2' := hf2 (Or.inl rfl)
    exact ⟨by omega, fun _ => by omega⟩
  | termTailStop r hstop => exact ⟨le_refl _, fun hk => by rcases hk with h | h | h <;> cases h⟩
  | termTailCons c t m r hc hf ht ihf iht =>
    obtain ⟨hf1, hf2⟩ := ihf
    obtain ⟨ht1, _⟩ := iht
    have hf2' := hf2 (Or.inl rfl)
    exact ⟨by simp; omega, fun hk => by rcases hk with h | h | h <;> cases h⟩
  | expr t m r ht he iht ihe =>
    obtain ⟨ht1, ht2⟩ := iht
    obtain ⟨he1, _⟩ := ihe
    have ht2' := ht2 (Or.inr (Or.inl rfl))
    exact ⟨by omega, fun _ => by omega⟩
  | exprTailStop r hstop => exact ⟨le_refl _, fun hk => by rcases hk with h | h | h <;> cases h⟩
  | exprTailCons c t m r hc ht he iht ihe =>
    obtain ⟨ht1, ht2⟩ := iht
    obtain ⟨he1, _⟩ := ihe
    have ht2' := ht2 (Or.inr (Or.inl rfl))
    exact ⟨by simp; omega, fun hk => by rcases hk with h | h | h <;> cases h⟩

/-- applyIntOp on one of the four real operators only fails by dividing
by zero. -/
theorem applyIntOp_err {l r : Int} {c : Char} {e : ParseErr}
    (hc : c = '+' ∨ c = '-' ∨ c = '*' ∨ c = '/')
    (h : applyIntOp l c r = .error e) : e = ParseErr.divisionByZero := by
  unfold applyIntOp at h
  rcases hc with hc | hc | hc | hc <;> subst hc
  · cases h
  · cases h
  · cases h
  · simp only [reduceIte] at h
    by_cases hr : r = 0
    · rw [if_pos hr] at h; cases h; rfl
    · rw [if_neg hr] at h; cases h

/-- Soundness and consumption facts for successful parses: a successful
parse of a nonterminal yields a grammar derivation of the consumed
prefix, the factor, term and expr nonterminals consume at least one
token, and every identifier token consumed resolves to a numeric value
in the scope. -/
theorem parseRun_sound (scope : Scope) :
    ∀ (fuel : Nat) (toks : List Token),
      (∀ v rest, parseRun scope fuel .factor toks = .ok (v, rest) →
        Deriv .factor toks rest ∧
          ∃ pre, pre ≠ [] ∧ toks = pre ++ rest ∧
            ∀ w, Token.ident w ∈ pre → lookupNumeric scope w ≠ none)
      ∧ (∀ v rest, parseRun scope fuel .term toks = .ok (v, rest) →
        Deriv .term toks rest ∧
          ∃ pre, pre ≠ [] ∧ toks = pre ++ rest ∧
            ∀ w, Token.ident w ∈ pre → lookupNumeric scope w ≠ none)
      ∧ (∀ acc v rest, parseRun scope fuel (.termLoop acc) toks = .ok (v, rest) →
        Deriv .termTail toks rest ∧
          ∃ pre, toks = pre ++ rest ∧
            ∀ w, Token.ident w ∈ pre → lookupNumeric scope w ≠ none)
      ∧ (∀ v rest, parseRun scope fuel .expr toks = .ok (v, rest) →
        Deriv .expr toks rest ∧
          ∃ pre, pre ≠ [] ∧ toks = pre ++ rest ∧
            ∀ w, Token.ident w ∈ pre → lookupNumeric scope w ≠ none)
      ∧ (∀ acc v rest, parseRun scope fuel (.exprLoop acc) toks = .ok (v, rest) →
        Deriv .exprTail toks rest ∧
          ∃ pre, toks = pre ++ rest ∧
            ∀ w, Token.ident w ∈ pre → lookupNumeric scope w ≠ none) := by
  intro fuel
  induction fuel using Nat.strong_induction_on with
  | _ fuel ih =>
    cases fuel with
    | zero =>
      intro toks
      refine ⟨fun v rest h => ?_, fun v rest h => ?_, fun acc v rest h => ?_,
        fun v rest h => ?_, fun acc v rest h => ?_⟩ <;> cases h
    | succ f =>
      have IH := fun toks => ih f (Nat.lt_succ_self f) toks
      intro toks
      refine ⟨?_, ?_, ?_, ?_, ?_⟩
      · -- factor
        intro v rest h
        cases toks with
        | nil => cases h
        | cons t ts =>
          cases t with
          | op c =>
            have hdef : parseRun scope (f + 1) .factor (Token.op c :: ts) =
                (if c = '+' ∨ c = '-' then
                  match parseRun scope f .factor ts with
                  | .error e => .error e
                  | .ok (v, r) => .ok (if c = '-' then -v else v, r)
                else .error .unexpectedToken) := rfl
            rw [hdef] at h
            by_cases hc : c = '+' ∨ c = '-'
            · rw [if_pos hc] at h
              cases hsub : parseRun scope f .factor ts with
              | error e => rw [hsub] at h; cases h
              | ok vr =>
                obtain ⟨v', r'⟩ := vr
                rw [hsub] at h
                injection h with h1
                have hr : r' = rest := congrArg Prod.snd h1
                subst hr
                obtain ⟨hD, pre, hne, hsplit, hgood⟩ := (IH ts).1 v' r' hsub
                refine ⟨Deriv.sign c ts r' hc hD, Token.op c :: pre, by simp, by simp [hsplit],
                  ?_⟩
                intro w hw
                rcases List.mem_cons.mp hw with h1 | h2
                · cases h1
                · exact hgood w h2
            · rw [if_neg hc] at h; cases h
          | num n =>
            have hdef : parseRun scope (f + 1) .factor (Token.num n :: ts) =
                .ok ((n : Int), ts) := rfl
            rw [hdef] at h
            injection h with h1
            have hr : ts = rest := congrArg Prod.snd h1
            subst hr
            refine ⟨Deriv.num n ts, [Token.num n], by simp, rfl, ?_⟩
            intro w hw
            simp at hw
          | ident s =>
            have hdef : parseRun scope (f + 1) .factor (Token.ident s :: ts) =
                (match List.lookup s scope with
                 | none => .error (.unknownVar s)
                 | some (.int n) => .ok (n, ts)
                 | some (.str vv) =>
                   if isNumericString (strTrim vv) then .ok (parseIntString (strTrim vv), ts)
                   else .error (.nonNumericVar s)) := rfl
            rw [hdef] at h
            cases hl : List.lookup s scope with
            | none => rw [hl] at h; cases h
            | some sv =>
              rw [hl] at h
              cases sv with
              | int n =>
                have h2 : (Except.ok ((n : Int), ts) :
                    Except ParseErr (Int × List Token)) = .ok (v, rest) := h
                injection h2 with h1
                have hr : ts = rest := congrArg Prod.snd h1
                subst hr
                refine ⟨Deriv.idnt s ts, [Token.ident s], by simp, rfl, ?_⟩
                intro w hw
                simp at hw
                subst hw
                simp [lookupNumeric, hl]
              | str vv =>
                have h2 : (if isNumericString (strTrim vv) then
                    (Except.ok (parseIntString (strTrim vv), ts) :
                      Except ParseErr (Int × List Token))
                    else .error (.nonNumericVar s)) = .ok (v, rest) := h
                by_cases hnum : isNumericString (strTrim vv) = true
                · rw [if_pos hnum] at h2
                  injection h2 with h1
                  have hr : ts = rest := congrArg Prod.snd h1
                  subst hr
                  refine ⟨Deriv.idnt s ts, [Token.ident s], by simp, rfl, ?_⟩
                  intro w hw
                  simp at hw
                  subst hw
                  simp [lookupNumeric, hl, hnum]
                · rw [if_neg hnum] at h2
                  cases h2
          | lparen =>
            have hdef : parseRun scope (f + 1) .factor (Token.lparen :: ts) =
                (match parseRun scope f .expr ts with
                 | .error e => .error e
                 | .ok (v, .rparen :: r) => .ok (v, r)
                 | .ok (_, _) => .error .missingClosingParen) := rfl
            rw [hdef] at h
            cases hsub : parseRun scope f .expr ts with
            | error e => rw [hsub] at h; cases h
            | ok vr =>
              obtain ⟨v', r'⟩ := vr
              rw [hsub] at h
              cases r' with
              | nil => cases h
              | cons rt rts =>
                cases rt with
                | rparen =>
                  have h2 : (Except.ok (v', rts) :
                      Except ParseErr (Int × List Token)) = .ok (v, rest) := h
                  injection h2 with h1
                  have hr : rts = rest := congrArg Prod.snd h1
                  subst hr
                  obtain ⟨hD, pre, hne, hsplit, hgood⟩ := (IH ts).2.2.2.1 v'
                    (Token.rparen :: rts) hsub
                  refine ⟨Deriv.paren ts rts hD, Token.lparen :: (pre ++ [Token.rparen]),
                    by simp, by simp [hsplit], ?_⟩
                  intro w hw
                  simp only [List.mem_cons, List.mem_append, List.mem_singleton] at hw
                  rcases hw with h1 | h2 | h3
                  · cases h1
                  · exact hgood w h2
                  · rcases h3 with h4 | h4
                    · cases h4
                    · simp at h4
                | num n => cases h
                | ident s => cases h
                | op c => cases h
                | lparen => cases h
          | rparen => cases h
      · -- term
        intro v rest h
        have hdef : parseRun scope (f + 1) .term toks =
            (match parseRun scope f .factor toks with
             | .error e => .error e
             | .ok (v, r) => parseRun scope f (.termLoop v) r) := rfl
        rw [hdef] at h
        cases hsub : parseRun scope f .factor toks with
        | error e => rw [hsub] at h; cases h
        | ok vr =>
          obtain ⟨v', r'⟩ := vr
          rw [hsub] at h
          obtain ⟨hD1, pre1, hne1, hsplit1, hgood1⟩ := (IH toks).1 v' r' hsub
          obtain ⟨hD2, pre2, hsplit2, hgood2⟩ := (IH r').2.2.1 v' v rest h
          refine ⟨Deriv.term toks r' rest hD1 hD2, pre1 ++ pre2, by simp [hne1],
            by rw [hsplit1, hsplit2, List.append_assoc], ?_⟩
          intro w hw
          rcases List.mem_append.mp hw with h1 | h2
          · exact hgood1 w h1
          · exact hgood2 w h2
      · -- termLoop
        intro acc v rest h
        cases htoks : toks with
        | nil =>
          subst htoks
          cases h
          exact ⟨Deriv.termTailStop [] rfl, [], rfl, fun w hw => by simp at hw⟩
        | cons t ts =>
          subst htoks
          cases t with
          | op c =>
            have hdef : parseRun scope (f + 1) (.termLoop acc) (Token.op c :: ts) =
                (if c = '*' ∨ c = '/' then
                  match parseRun scope f .factor ts with
                  | .error e => .error e
                  | .ok (rhs, r2) =>
                    match applyIntOp acc c rhs with
                    | .error e => .error e
                    | .ok v2 => parseRun scope f (.termLoop v2) r2
                else .ok (acc, Token.op c :: ts)) := rfl
            rw [hdef] at h
            by_cases hc : c = '*' ∨ c = '/'
            · rw [if_pos hc] at h
              cases hsub : parseRun scope f .factor ts with
              | error e => rw [hsub] at h; cases h
              | ok vr =>
                obtain ⟨rhs, r2⟩ := vr
                rw [hsub] at h
                have h2 : (match applyIntOp acc c rhs with
                    | .error e => (.error e : Except ParseErr (Int × List Token))
                    | .ok v2 => parseRun scope f (.termLoop v2) r2) = .ok (v, rest) := h
                cases hop : applyIntOp acc c rhs with
                | error e => rw [hop] at h2; cases h2
                | ok v2 =>
                  rw [hop] at h2
                  have h3 : parseRun scope f (PKind.termLoop v2) r2 = .ok (v, rest) := h2
                  obtain ⟨hD1, pre1, hne1, hsplit1, hgood1⟩ := (IH ts).1 rhs r2 hsub
                  obtain ⟨hD2, pre2, hsplit2, hgood2⟩ := (IH r2).2.2.1 v2 v rest h3
                  refine ⟨Deriv.termTailCons c ts r2 rest hc hD1 hD2,
                    Token.op c :: (pre1 ++ pre2),
                    by simp [hsplit1, hsplit2, List.append_assoc], ?_⟩
                  intro w hw
                  simp only [List.mem_cons, List.mem_append] at hw
                  rcases hw with h1 | h2 | h3
                  · cases h1
                  · exact hgood1 w h2
                  · exact hgood2 w h3
            · rw [if_neg hc] at h
              cases h
              refine ⟨Deriv.termTailStop (Token.op c :: ts) ?_, [], rfl,
                fun w hw => by simp at hw⟩
              simp only [noMulDivHead]
              rcases Decidable.em (c = '*') with h1 | h1
              · exact absurd (Or.inl h1) hc
              · rcases Decidable.em (c = '/') with h2 | h2
                · exact absurd (Or.inr h2) hc
                · simp [h1, h2]
          | num n =>
            cases h
            exact ⟨Deriv.termTailStop _ rfl, [], rfl, fun w hw => by simp at hw⟩
          | ident s =>
            cases h
            exact ⟨Deriv.termTailStop _ rfl, [], rfl, fun w hw => by simp at hw⟩
          | lparen =>
            cases h
            exact ⟨Deriv.termTailStop _ rfl, [], rfl, fun w hw => by simp at hw⟩
          | rparen =>
            cases h
            exact ⟨Deriv.termTailStop _ rfl, [], rfl, fun w hw => by simp at hw⟩
      · -- expr
        intro v rest h
        have hdef : parseRun scope (f + 1) .expr toks =
            (match parseRun scope f .term toks with
             | .error e => .error e
             | .ok (v, r) => parseRun scope f (.exprLoop v) r) := rfl
        rw [hdef] at h
        cases hsub : parseRun scope f .term toks with
        | error e => rw [hsub] at h; cases h
        | ok vr =>
          obtain ⟨v', r'⟩ := vr
          rw [hsub] at h
          obtain ⟨hD1, pre1, hne1, hsplit1, hgood1⟩ := (IH toks).2.1 v' r' hsub
          obtain ⟨hD2, pre2, hsplit2, hgood2⟩ := (IH r').2.2.2.2 v' v rest h
          refine ⟨Deriv.expr toks r' rest hD1 hD2, pre1 ++ pre2, by simp [hne1],
            by rw [hsplit1, hsplit2, List.append_assoc], ?_⟩
          intro w hw
          rcases List.mem_append.mp hw with h1 | h2
          · exact hgood1 w h1
          · exact hgood2 w h2
      · -- exprLoop
        intro acc v rest h
        cases htoks : toks with
        | nil =>
          subst htoks
          cases h
          exact ⟨Deriv.exprTailStop [] rfl, [], rfl, fun w hw => by simp at hw⟩
        | cons t ts =>
          subst htoks
          cases t with
          | op c =>
            have hdef : parseRun scope (f + 1) (.exprLoop acc) (Token.op c :: ts) =
                (if c = '+' ∨ c = '-' then
                  match parseRun scope f .term ts with
                  | .error e => .error e
                  | .ok (rhs, r2) =>
                    match applyIntOp acc c rhs with
                    | .error e => .error e
                    | .ok v2 => parseRun scope f (.exprLoop v2) r2
                else .ok (acc, Token.op c :: ts)) := rfl
            rw [hdef] at h
            by_cases hc : c = '+' ∨ c = '-'
            · rw [if_pos hc] at h
              cases hsub : parseRun scope f .term ts with
              | error e => rw [hsub] at h; cases h
              | ok vr =>
                obtain ⟨rhs, r2⟩ := vr
                rw [hsub] at h
                have h2 : (match applyIntOp acc c rhs with
                    | .error e => (.error e : Except ParseErr (Int × List Token))
                    | .ok v2 => parseRun scope f (.exprLoop v2) r2) = .ok (v, rest) := h
                cases hop : applyIntOp acc c rhs with
                | error e => rw [hop] at h2; cases h2
                | ok v2 =>
                  rw [hop] at h2
                  have h3 : parseRun scope f (PKind.exprLoop v2) r2 = .ok (v, rest) := h2
                  obtain ⟨hD1, pre1, hne1, hsplit1, hgood1⟩ := (IH ts).2.1 rhs r2 hsub
                  obtain ⟨hD2, pre2, hsplit2, hgood2⟩ := (IH r2).2.2.2.2 v2 v rest h3
                  refine ⟨Deriv.exprTailCons c ts r2 rest hc hD1 hD2,
                    Token.op c :: (pre1 ++ pre2),
                    by simp [hsplit1, hsplit2, List.append_assoc], ?_⟩
                  intro w hw
                  simp only [List.mem_cons, List.mem_append] at hw
                  rcases hw with h1 | h2 | h3
                  · cases h1
                  · exact hgood1 w h2
                  · exact hgood2 w h3
            · rw [if_neg hc] at h
              cases h
              refine ⟨Deriv.exprTailStop (Token.op c :: ts) ?_, [], rfl,
                fun w hw => by simp at hw⟩
              simp only [noAddSubHead]
              rcases Decidable.em (c = '+') with h1 | h1
              · exact absurd (Or.inl h1) hc
              · rcases Decidable.em (c = '-') with h2 | h2
                · exact absurd (Or.inr h2) hc
                · simp [h1, h2]
          | num n =>
            cases h
            exact ⟨Deriv.exprTailStop _ rfl, [], rfl, fun w hw => by simp at hw⟩
          | ident s =>
            cases h
            exact ⟨Deriv.exprTailStop _ rfl, [], rfl, fun w hw => by simp at hw⟩
          | lparen =>
            cases h
            exact ⟨Deriv.exprTailStop _ rfl, [], rfl, fun w hw => by simp at hw⟩
          | rparen =>
            cases h
            exact ⟨Deriv.exprTailStop _ rfl, [], rfl, fun w hw => by simp at hw⟩

/-- Error attribution holds trivially when the error is none of the four
attributed constructors. -/
theorem errAttrOfNe (scope : Scope) (fuel : Nat) (toks : List Token) (k : PKind)
    {e : ParseErr}
    (h1 : ∀ w, e ≠ ParseErr.unknownVar w) (h2 : ∀ w, e ≠ ParseErr.nonNumericVar w)
    (h3 : e ≠ ParseErr.badOperator) (h4 : e ≠ ParseErr.outOfFuel) :
    ErrAttr scope fuel toks k e :=
  ⟨fun w hw => absurd hw (h1 w), fun w hw => absurd hw (h2 w), h3, fun _ => h4⟩

/-- Error attribution transports along a sub-parse whose token list embeds
into the outer one and whose fuel need follows from the outer bound. -/
theorem errAttrLift (scope : Scope) {fuel fuel' : Nat} {toks toks' : List Token}
    {k k' : PKind} {e : ParseErr}
    (hsub : ErrAttr scope fuel' toks' k' e)
    (hmem : ∀ w, Token.ident w ∈ toks' → Token.ident w ∈ toks)
    (hfuel : pkindNeed k toks ≤ fuel → pkindNeed k' toks' ≤ fuel') :
    ErrAttr scope fuel toks k e := by
  obtain ⟨a1, a2, a3, a4⟩ := hsub
  refine ⟨fun w hw => ⟨hmem w (a1 w hw).1, (a1 w hw).2⟩,
    fun w hw => ⟨hmem w (a2 w hw).1, (a2 w hw).2⟩, a3, fun hle => a4 (hfuel hle)⟩

/-- Every parse error is attributed: unknown-variable and
non-numeric-variable errors point at an identifier token of the input
with the corresponding scope defect, the bad-operator error never
surfaces, and with the stated fuel the out-of-fuel error never
surfaces. -/
theorem parseRun_err (scope : Scope) :
    ∀ (fuel : Nat) (toks : List Token) (k : PKind) (e : ParseErr),
      parseRun scope fuel k toks = .error e → ErrAttr scope fuel toks k e := by
  intro fuel
  induction fuel using Nat.strong_induction_on with
  | _ fuel ih =>
    cases fuel with
    | zero =>
      intro toks k e h
      injection h with h1
      subst h1
      refine ⟨(fun w hw => by cases hw), (fun w hw => by cases hw), (by intro hw; cases hw),
        (fun hle => ?_)⟩
      exfalso
      cases k <;> simp [pkindNeed] at hle
    | succ f =>
      have IH : ∀ toks k e, parseRun scope f k toks = .error e →
          ErrAttr scope f toks k e :=
        fun toks k e h => ih f (Nat.lt_succ_self f) toks k e h
      intro toks k e h
      cases k with
      | factor =>
        cases toks with
        | nil =>
          have hh : (Except.error ParseErr.unexpectedEnd :
              Except ParseErr (Int × List Token)) = .error e := h
          injection hh with h1
          subst h1
          exact errAttrOfNe scope _ _ _ (fun w hw => by cases hw) (fun w hw => by cases hw)
            (by intro hw; cases hw) (by intro hw; cases hw)
        | cons t ts =>
          cases t with
          | op c =>
            have hdef : parseRun scope (f + 1) .factor (Token.op c :: ts) =
                (if c = '+' ∨ c = '-' then
                  match parseRun scope f .factor ts with
                  | .error e => .error e
                  | .ok (v, r) => .ok (if c = '-' then -v else v, r)
                else .error .unexpectedToken) := rfl
            rw [hdef] at h
            by_cases hc : c = '+' ∨ c = '-'
            · rw [if_pos hc] at h
              cases hsub : parseRun scope f .factor ts with
              | error e1 =>
                rw [hsub] at h
                have hh : (Except.error e1 :
                    Except ParseErr (Int × List Token)) = .error e := h
                injection hh with h1
                subst h1
                exact errAttrLift scope (IH ts .factor e1 hsub)
                  (fun w hw => List.mem_cons_of_mem _ hw)
                  (fun hle => by simp [pkindNeed] at hle ⊢; omega)
              | ok vr =>
                obtain ⟨v', r'⟩ := vr
                rw [hsub] at h
                have hh : (Except.ok (if c = '-' then -v' else v', r') :
                    Except ParseErr (Int × List Token)) = .error e := h
                cases hh
            · rw [if_neg hc] at h
              injection h with h1
              subst h1
              exact errAttrOfNe scope _ _ _ (fun w hw => by cases hw)
                (fun w hw => by cases hw) (by intro hw; cases hw) (by intro hw; cases hw)
          | num n => cases h
          | ident s =>
            have hdef : parseRun scope (f + 1) .factor (Token.ident s :: ts) =
                (match List.lookup s scope with
                 | none => .error (.unknownVar s)
                 | some (.int n) => .ok (n, ts)
                 | some (.str vv) =>
                   if isNumericString (strTrim vv) then .ok (parseIntString (strTrim vv), ts)
                   else .error (.nonNumericVar s)) := rfl
            rw [hdef] at h
            cases hl : List.lookup s scope with
            | none =>
              rw [hl] at h
              have hh : (Except.error (ParseErr.unknownVar s) :
                  Except ParseErr (Int × List Token)) = .error e := h
              injection hh with h1
              subst h1
              refine ⟨(fun w hw => ?_), (fun w hw => by cases hw), (by intro hw; cases hw),
                (fun _ => by intro hw; cases hw)⟩
              injection hw with hws
              subst hws
              exact ⟨List.mem_cons_self _ _, hl⟩
            | some sv =>
              rw [hl] at h
              cases sv with
              | int n =>
                have hh : (Except.ok ((n : Int), ts) :
                    Except ParseErr (Int × List Token)) = .error e := h
                cases hh
              | str vv =>
                have h2 : (if isNumericString (strTrim vv) then
                    (Except.ok (parseIntString (strTrim vv), ts) :
                      Except ParseErr (Int × List Token))
                    else .error (.nonNumericVar s)) = .error e := h
                by_cases hnum : isNumericString (strTrim vv) = true
                · rw [if_pos hnum] at h2
                  cases h2
                · rw [if_neg hnum] at h2
                  injection h2 with h1
                  subst h1
                  refine ⟨(fun w hw => by cases hw), (fun w hw => ?_), (by intro hw; cases hw),
                    (fun _ => by intro hw; cases hw)⟩
                  injection hw with hws
                  subst hws
                  refine ⟨List.mem_cons_self _ _, vv, hl, ?_⟩
                  cases hb : isNumericString (strTrim vv) with
                  | false => rfl
                  | true => exact absurd hb hnum
          | lparen =>
            have hdef : parseRun scope (f + 1) .factor (Token.lparen :: ts) =
                (match parseRun scope f .expr ts with
                 | .error e => .error e
                 | .ok (v, .rparen :: r) => .ok (v, r)
                 | .ok (_, _) => .error .missingClosingParen) := rfl
            rw [hdef] at h
            cases hsub : parseRun scope f .expr ts with
            | error e1 =>
              rw [hsub] at h
              have hh : (Except.error e1 :
                  Except ParseErr (Int × List Token)) = .error e := h
              injection hh with h1
              subst h1
              exact errAttrLift scope (IH ts .expr e1 hsub)
                (fun w hw => List.mem_cons_of_mem _ hw)
                (fun hle => by simp [pkindNeed] at hle ⊢; omega)
            | ok vr =>
              obtain ⟨v', r'⟩ := vr
              rw [hsub] at h
              cases r' with
              | nil =>
                have hh : (Except.error ParseErr.missingClosingParen :
                    Except ParseErr (Int × List Token)) = .error e := h
                injection hh with h1
                subst h1
                exact errAttrOfNe scope _ _ _ (fun w hw => by cases hw)
                  (fun w hw => by cases hw) (by intro hw; cases hw) (by intro hw; cases hw)
              | cons rt rts =>
                cases rt with
                | rparen =>
                  have hh : (Except.ok (v', rts) :
                      Except ParseErr (Int × List Token)) = .error e := h
                  cases hh
                | num n =>
                  have hh : (Except.error ParseErr.missingClosingParen :
                      Except ParseErr (Int × List Token)) = .error e := h
                  injection hh with h1
                  subst h1
                  exact errAttrOfNe scope _ _ _ (fun w hw => by cases hw)
                    (fun w hw => by cases hw) (by intro hw; cases hw) (by intro hw; cases hw)
                | ident s =>
                  have hh : (Except.error ParseErr.missingClosingParen :
                      Except ParseErr (Int × List Token)) = .error e := h
                  injection hh with h1
                  subst h1
                  exact errAttrOfNe scope _ _ _ (fun w hw => by cases hw)
                    (fun w hw => by cases hw) (by intro hw; cases hw) (by intro hw; cases hw)
                | op c =>
                  have hh : (Except.error ParseErr.missingClosingParen :
                      Except ParseErr (Int × List Token)) = .error e := h
                  injection hh with h1
                  subst h1
                  exact errAttrOfNe scope _ _ _ (fun w hw => by cases hw)
                    (fun w hw => by cases hw) (by intro hw; cases hw) (by intro hw; cases hw)
                | lparen =>
                  have hh : (Except.error ParseErr.missingClosingParen :
                      Except ParseErr (Int × List Token)) = .error e := h
                  injection hh with h1
                  subst h1
                  exact errAttrOfNe scope _ _ _ (fun w hw => by cases hw)
                    (fun w hw => by cases hw) (by intro hw; cases hw) (by intro hw; cases hw)
          | rparen =>
            have hh : (Except.error ParseErr.unexpectedToken :
                Except ParseErr (Int × List Token)) = .error e := h
            injection hh with h1
            subst h1
            exact errAttrOfNe scope _ _ _ (fun w hw => by cases hw) (fun w hw => by cases hw)
              (by intro hw; cases hw) (by intro hw; cases hw)
      | term =>
        have hdef : parseRun scope (f + 1) .term toks =
            (match parseRun scope f .factor toks with
             | .error e => .error e
             | .ok (v, r) => parseRun scope f (.termLoop v) r) := rfl
        rw [hdef] at h
        cases hsub : parseRun scope f .factor toks with
        | error e1 =>
          rw [hsub] at h
          have hh : (Except.error e1 : Except ParseErr (Int × List Token)) = .error e := h
          injection hh with h1
          subst h1
          exact errAttrLift scope (IH toks .factor e1 hsub) (fun w hw => hw)
            (fun hle => by simp [pkindNeed] at hle ⊢; omega)
        | ok vr =>
          obtain ⟨v', r'⟩ := vr
          rw [hsub] at h
          have h2 : parseRun scope f (PKind.termLoop v') r' = .error e := h
          obtain ⟨hD1, pre1, hne1, hsplit1, hgood1⟩ :=
            (parseRun_sound scope f toks).1 v' r' hsub
          have hlen : toks.length = pre1.length + r'.length := by
            rw [hsplit1, List.length_append]
          have hpre : 0 < pre1.length := List.length_pos.mpr hne1
          exact errAttrLift scope (IH r' (.termLoop v') e h2)
            (fun w hw => by rw [hsplit1]; exact List.mem_append_right _ hw)
            (fun hle => by simp [pkindNeed] at hle ⊢; omega)
      | termLoop acc =>
        cases htoks : toks with
        | nil =>
          subst htoks
          cases h
        | cons t ts =>
          subst htoks
          cases t with
          | op c =>
            have hdef : parseRun scope (f + 1) (.termLoop acc) (Token.op c :: ts) =
                (if c = '*' ∨ c = '/' then
                  match parseRun scope f .factor ts with
                  | .error e => .error e
                  | .ok (rhs, r2) =>
                    match applyIntOp acc c rhs with
                    | .error e => .error e
                    | .ok v2 => parseRun scope f (.termLoop v2) r2
                else .ok (acc, Token.op c :: ts)) := rfl
            rw [hdef] at h
            by_cases hc : c = '*' ∨ c = '/'
            · rw [if_pos hc] at h
              cases hsub : parseRun scope f .factor ts with
              | error e1 =>
                rw [hsub] at h
                have hh : (Except.error e1 :
                    Except ParseErr (Int × List Token)) = .error e := h
                injection hh with h1
                subst h1
                exact errAttrLift scope (IH ts .factor e1 hsub)
                  (fun w hw => List.mem_cons_of_mem _ hw)
                  (fun hle => by simp [pkindNeed] at hle ⊢; omega)
              | ok vr =>
                obtain ⟨rhs, r2⟩ := vr
                rw [hsub] at h
                have h2 : (match applyIntOp acc c rhs with
                    | .error e => (.error e : Except ParseErr (Int × List Token))
                    | .ok v2 => parseRun scope f (.termLoop v2) r2) = .error e := h
                cases hop : applyIntOp acc c rhs with
                | error e2 =>
                  rw [hop] at h2
                  have h3 : (Except.error e2 :
                      Except ParseErr (Int × List Token)) = .error e := h2
                  injection h3 with h1
                  subst h1
                  have he2 : e2 = ParseErr.divisionByZero :=
                    applyIntOp_err (Or.inr (Or.inr hc)) hop
                  subst he2
                  exact errAttrOfNe scope _ _ _ (fun w hw => by cases hw)
                    (fun w hw => by cases hw) (by intro hw; cases hw) (by intro hw; cases hw)
                | ok v2 =>
                  rw [hop] at h2
                  have h3 : parseRun scope f (PKind.termLoop v2) r2 = .error e := h2
                  obtain ⟨hD1, pre1, hne1, hsplit1, hgood1⟩ :=
                    (parseRun_sound scope f ts).1 rhs r2 hsub
                  have hlen : ts.length = pre1.length + r2.length := by
                    rw [hsplit1, List.length_append]
                  have hpre : 0 < pre1.length := List.length_pos.mpr hne1
                  exact errAttrLift scope (IH r2 (.termLoop v2) e h3)
                    (fun w hw => List.mem_cons_of_mem _
                      (by rw [hsplit1]; exact List.mem_append_right _ hw))
                    (fun hle => by simp [pkindNeed] at hle ⊢; omega)
            · rw [if_neg hc] at h
              cases h
          | num n => cases h
          | ident s => cases h
          | lparen => cases h
          | rparen => cases h
      | expr =>
        have hdef : parseRun scope (f + 1) .expr toks =
            (match parseRun scope f .term toks with
             | .error e => .error e
             | .ok (v, r) => parseRun scope f (.exprLoop v) r) := rfl
        rw [hdef] at h
        cases hsub : parseRun scope f .term toks with
        | error e1 =>
          rw [hsub] at h
          have hh : (Except.error e1 : Except ParseErr (Int × List Token)) = .error e := h
          injection hh with h1
          subst h1
          exact errAttrLift scope (IH toks .term e1 hsub) (fun w hw => hw)
            (fun hle => by simp [pkindNeed] at hle ⊢; omega)
        | ok vr =>
          obtain ⟨v', r'⟩ := vr
          rw [hsub] at h
          have h2 : parseRun scope f (PKind.exprLoop v') r' = .error e := h
          obtain ⟨hD1, pre1, hne1, hsplit1, hgood1⟩ :=
            (parseRun_sound scope f toks).2.1 v' r' hsub
          have hlen : toks.length = pre1.length + r'.length := by
            rw [hsplit1, List.length_append]
          have hpre : 0 < pre1.length := List.length_pos.mpr hne1
          exact errAttrLift scope (IH r' (.exprLoop v') e h2)
            (fun w hw => by rw [hsplit1]; exact List.mem_append_right _ hw)
            (fun hle => by simp [pkindNeed] at hle ⊢; omega)
      | exprLoop acc =>
        cases htoks : toks with
        | nil =>
          subst htoks
          cases h
        | cons t ts =>
          subst htoks
          cases t with
          | op c =>
            have hdef : parseRun scope (f + 1) (.exprLoop acc) (Token.op c :: ts) =
                (if c = '+' ∨ c = '-' then
                  match parseRun scope f .term ts with
                  | .error e => .error e
                  | .ok (rhs, r2) =>
                    match applyIntOp acc c rhs with
                    | .error e => .error e
                    | .ok v2 => parseRun scope f (.exprLoop v2) r2
                else .ok (acc, Token.op c :: ts)) := rfl
            rw [hdef] at h
            by_cases hc : c = '+' ∨ c = '-'
            · rw [if_pos hc] at h
              cases hsub : parseRun scope f .term ts with
              | error e1 =>
                rw [hsub] at h
                have hh : (Except.error e1 :
                    Except ParseErr (Int × List Token)) = .error e := h
                injection hh with h1
                subst h1
                exact errAttrLift scope (IH ts .term e1 hsub)
                  (fun w hw => List.mem_cons_of_mem _ hw)
                  (fun hle => by simp [pkindNeed] at hle ⊢; omega)
              | ok vr =>
                obtain ⟨rhs, r2⟩ := vr
                rw [hsub] at h
                have h2 : (match applyIntOp acc c rhs with
                    | .error e => (.error e : Except ParseErr (Int × List Token))
                    | .ok v2 => parseRun scope f (.exprLoop v2) r2) = .error e := h
                cases hop : applyIntOp acc c rhs with
                | error e2 =>
                  rw [hop] at h2
                  have h3 : (Except.error e2 :
                      Except ParseErr (Int × List Token)) = .error e := h2
                  injection h3 with h1
                  subst h1
                  have he2 : e2 = ParseErr.divisionByZero :=
                    applyIntOp_err (hc.imp_right fun h => Or.inl h) hop
                  subst he2
                  exact errAttrOfNe scope _ _ _ (fun w hw => by cases hw)
                    (fun w hw => by cases hw) (by intro hw; cases hw) (by intro hw; cases hw)
                | ok v2 =>
                  rw [hop] at h2
                  have h3 : parseRun scope f (PKind.exprLoop v2) r2 = .error e := h2
                  obtain ⟨hD1, pre1, hne1, hsplit1, hgood1⟩ :=
                    (parseRun_sound scope f ts).2.1 rhs r2 hsub
                  have hlen : ts.length = pre1.length + r2.length := by
                    rw [hsplit1, List.length_append]
                  have hpre : 0 < pre1.length := List.length_pos.mpr hne1
                  exact errAttrLift scope (IH r2 (.exprLoop v2) e h3)
                    (fun w hw => List.mem_cons_of_mem _
                      (by rw [hsplit1]; exact List.mem_append_right _ hw))
                    (fun hle => by simp [pkindNeed] at hle ⊢; omega)
            · rw [if_neg hc] at h
              cases h
          | num n => cases h
          | ident s => cases h
          | lparen => cases h
          | rparen => cases h

/-- Completeness of the parser against the grammar: whenever the grammar
derives a nonterminal consuming a prefix, the parser with sufficient fuel
either succeeds consuming exactly that prefix or fails with a semantic
error (an unknown or non-numeric variable, or a division by zero). -/
theorem deriv_parse (scope : Scope) {dk : DK} {toks rest : List Token}
    (h : Deriv dk toks rest) :
    ∀ fuel : Nat,
      (dk = DK.factor → 4 * toks.length + 1 ≤ fuel →
        (∃ v, parseRun scope fuel .factor toks = .ok (v, rest)) ∨
        (∃ e, parseRun scope fuel .factor toks = .error e ∧ isSemErrB e = true))
      ∧ (dk = DK.term → 4 * toks.length + 2 ≤ fuel →
        (∃ v, parseRun scope fuel .term toks = .ok (v, rest)) ∨
        (∃ e, parseRun scope fuel .term toks = .error e ∧ isSemErrB e = true))
      ∧ (dk = DK.termTail → 4 * toks.length + 2 ≤ fuel → ∀ acc,
        (∃ v, parseRun scope fuel (.termLoop acc) toks = .ok (v, rest)) ∨
        (∃ e, parseRun scope fuel (.termLoop acc) toks = .error e ∧ isSemErrB e = true))
      ∧ (dk = DK.expr → 4 * toks.length + 3 ≤ fuel →
        (∃ v, parseRun scope fuel .expr toks = .ok (v, rest)) ∨
        (∃ e, parseRun scope fuel .expr toks = .error e ∧ isSemErrB e = true))
      ∧ (dk = DK.exprTail → 4 * toks.length + 3 ≤ fuel → ∀ acc,
        (∃ v, parseRun scope fuel (.exprLoop acc) toks = .ok (v, rest)) ∨
        (∃ e, parseRun scope fuel (.exprLoop acc) toks = .error e ∧ isSemErrB e = true)) := by
  induction h with
  | num n r =>
    intro fuel
    refine ⟨?_, (fun hdk => absurd hdk (by decide)), (fun hdk => absurd hdk (by decide)),
      (fun hdk => absurd hdk (by decide)), (fun hdk => absurd hdk (by decide))⟩
    intro _ hfuel
    cases fuel with
    | zero => exact absurd hfuel (by omega)
    | succ f => exact Or.inl ⟨(n : Int), rfl⟩
  | idnt s r =>
    intro fuel
    refine ⟨?_, (fun hdk => absurd hdk (by decide)), (fun hdk => absurd hdk (by decide)),
      (fun hdk => absurd hdk (by decide)), (fun hdk => absurd hdk (by decide))⟩
    intro _ hfuel
    cases fuel with
    | zero => exact absurd hfuel (by omega)
    | succ f =>
      have hdef : parseRun scope (f + 1) .factor (Token.ident s :: r) =
          (match List.lookup s scope with
           | none => .error (.unknownVar s)
           | some (.int n) => .ok (n, r)
           | some (.str vv) =>
             if isNumericString (strTrim vv) then .ok (parseIntString (strTrim vv), r)
             else .error (.nonNumericVar s)) := rfl
      cases hl : List.lookup s scope with
      | none =>
        refine Or.inr ⟨ParseErr.unknownVar s, ?_, rfl⟩
        rw [hdef, hl]
      | some sv =>
        cases sv with
        | int n =>
          refine Or.inl ⟨n, ?_⟩
          rw [hdef, hl]
        | str vv =>
          by_cases hnum : isNumericString (strTrim vv) = true
          · refine Or.inl ⟨parseIntString (strTrim vv), ?_⟩
            rw [hdef, hl]
            simp [hnum]
          · refine Or.inr ⟨ParseErr.nonNumericVar s, ?_, rfl⟩
            rw [hdef, hl]
            simp [hnum]
  | sign c t r hc hsub ih =>
    intro fuel
    refine ⟨?_, (fun hdk => absurd hdk (by decide)), (fun hdk => absurd hdk (by decide)),
      (fun hdk => absurd hdk (by decide)), (fun hdk => absurd hdk (by decide))⟩
    intro _ hfuel
    cases fuel with
    | zero => exact absurd hfuel (by omega)
    | succ f =>
      have hdef : parseRun scope (f + 1) .factor (Token.op c :: t) =
          (if c = '+' ∨ c = '-' then
            match parseRun scope f .factor t with
            | .error e => .error e
            | .ok (v, r) => .ok (if c = '-' then -v else v, r)
          else .error .unexpectedToken) := rfl
      have hsubfuel : 4 * t.length + 1 ≤ f := by
        simp [List.length_cons] at hfuel
        omega
      rcases (ih f).1 rfl hsubfuel with ⟨v, hok⟩ | ⟨e, herr, hsem⟩
      · refine Or.inl ⟨if c = '-' then -v else v, ?_⟩
        rw [hdef, if_pos hc, hok]
      · refine Or.inr ⟨e, ?_, hsem⟩
        rw [hdef, if_pos hc, herr]
  | paren t r hsub ih =>
    intro fuel
    refine ⟨?_, (fun hdk => absurd hdk (by decide)), (fun hdk => absurd hdk (by decide)),
      (fun hdk => absurd hdk (by decide)), (fun hdk => absurd hdk (by decide))⟩
    intro _ hfuel
    cases fuel with
    | zero => exact absurd hfuel (by omega)
    | succ f =>
      have hdef : parseRun scope (f + 1) .factor (Token.lparen :: t) =
          (match parseRun scope f .expr t with
           | .error e => .error e
           | .ok (v, .rparen :: r) => .ok (v, r)
           | .ok (_, _) => .error .missingClosingParen) := rfl
      have hsubfuel : 4 * t.length + 3 ≤ f := by
        simp [List.length_cons] at hfuel
        omega
      rcases (ih f).2.2.2.1 rfl hsubfuel with ⟨v, hok⟩ | ⟨e, herr, hsem⟩
      · refine Or.inl ⟨v, ?_⟩
        rw [hdef, hok]
      · refine Or.inr ⟨e, ?_, hsem⟩
        rw [hdef, herr]
  | term t m r hfac htail ihfac ihtail =>
    intro fuel
    refine ⟨(fun hdk => absurd hdk (by decide)), ?_, (fun hdk => absurd hdk (by decide)),
      (fun hdk => absurd hdk (by decide)), (fun hdk => absurd hdk (by decide))⟩
    intro _ hfuel
    cases fuel with
    | zero => exact absurd hfuel (by omega)
    | succ f =>
      have hdef : parseRun scope (f + 1) .term t =
          (match parseRun scope f .factor t with
           | .error e => .error e
           | .ok (v, r) => parseRun scope f (.termLoop v) r) := rfl
      have hsubfuel : 4 * t.length + 1 ≤ f := by omega
      rcases (ihfac f).1 rfl hsubfuel with ⟨v, hok⟩ | ⟨e, herr, hsem⟩
      · have hlt : m.length < t.length := (derivLen hfac).2 (Or.inl rfl)
        have htailfuel : 4 * m.length + 2 ≤ f := by omega
        rcases (ihtail f).2.2.1 rfl htailfuel v with ⟨v2, hok2⟩ | ⟨e2, herr2, hsem2⟩
        · refine Or.inl ⟨v2, ?_⟩
          rw [hdef, hok]
          exact hok2
        · refine Or.inr ⟨e2, ?_, hsem2⟩
          rw [hdef, hok]
          exact herr2
      · refine Or.inr ⟨e, ?_, hsem⟩
        rw [hdef, herr]
  | termTailStop r hnmd =>
    intro fuel
    refine ⟨(fun hdk => absurd hdk (by decide)), (fun hdk => absurd hdk (by decide)), ?_,
      (fun hdk => absurd hdk (by decide)), (fun hdk => absurd hdk (by decide))⟩
    intro _ hfuel acc
    cases fuel with
    | zero => exact absurd hfuel (by omega)
    | succ f =>
      refine Or.inl ⟨acc, ?_⟩
      cases r with
      | nil => rfl
      | cons t ts =>
        cases t with
        | op c =>
          have hcc : ¬(c = '*' ∨ c = '/') := by
            intro hcc
            rcases hcc with h1 | h1 <;> simp [noMulDivHead, h1] at hnmd
          have hdef : parseRun scope (f + 1) (.termLoop acc) (Token.op c :: ts) =
              (if c = '*' ∨ c = '/' then
                match parseRun scope f .factor ts with
                | .error e => .error e
                | .ok (rhs, r2) =>
                  match applyIntOp acc c rhs with
                  | .error e => .error e
                  | .ok v2 => parseRun scope f (.termLoop v2) r2
              else .ok (acc, Token.op c :: ts)) := rfl
          rw [hdef, if_neg hcc]
        | num n => rfl
        | ident s => rfl
        | lparen => rfl
        | rparen => rfl
  | termTailCons c t m r hc hfac htail ihfac ihtail =>
    intro fuel
    refine ⟨(fun hdk => absurd hdk (by decide)), (fun hdk => absurd hdk (by decide)), ?_,
      (fun hdk => absurd hdk (by decide)), (fun hdk => absurd hdk (by decide))⟩
    intro _ hfuel acc
    cases fuel with
    | zero => exact absurd hfuel (by omega)
    | succ f =>
      have hdef : parseRun scope (f + 1) (.termLoop acc) (Token.op c :: t) =
          (if c = '*' ∨ c = '/' then
            match parseRun scope f .factor t with
            | .error e => .error e
            | .ok (rhs, r2) =>
              match applyIntOp acc c rhs with
              | .error e => .error e
              | .ok v2 => parseRun scope f (.termLoop v2) r2
          else .ok (acc, Token.op c :: t)) := rfl
      have hsubfuel : 4 * t.length + 1 ≤ f := by
        simp [List.length_cons] at hfuel
        omega
      rcases (ihfac f).1 rfl hsubfuel with ⟨rhs, hok⟩ | ⟨e, herr, hsem⟩
      · cases hop : applyIntOp acc c rhs with
        | error e2 =>
          have he2 : e2 = ParseErr.divisionByZero :=
            applyIntOp_err (Or.inr (Or.inr hc)) hop
          subst he2
          refine Or.inr ⟨ParseErr.divisionByZero, ?_, rfl⟩
          rw [hdef, if_pos hc, hok]
          show (match applyIntOp acc c rhs with
              | .error e => (.error e : Except ParseErr (Int × List Token))
              | .ok v2 => parseRun scope f (.termLoop v2) m) = _
          rw [hop]
        | ok v2 =>
          have hlt : m.length < t.length := (derivLen hfac).2 (Or.inl rfl)
          have htailfuel : 4 * m.length + 2 ≤ f := by
            simp [List.length_cons] at hfuel
            omega
          rcases (ihtail f).2.2.1 rfl htailfuel v2 with ⟨v3, hok3⟩ | ⟨e3, herr3, hsem3⟩
          · refine Or.inl ⟨v3, ?_⟩
            rw [hdef, if_pos hc, hok]
            show (match applyIntOp acc c rhs with
                | .error e => (.error e : Except ParseErr (Int × List Token))
                | .ok v2 => parseRun scope f (.termLoop v2) m) = _
            rw [hop]
            exact hok3
          · refine Or.inr ⟨e3, ?_, hsem3⟩
            rw [hdef, if_pos hc, hok]
            show (match applyIntOp acc c rhs with
                | .error e => (.error e : Except ParseErr (Int × List Token))
                | .ok v2 => parseRun scope f (.termLoop v2) m) = _
            rw [hop]
            exact herr3
      · refine Or.inr ⟨e, ?_, hsem⟩
        rw [hdef, if_pos hc, herr]
  | expr t m r hterm htail ihterm ihtail =>
    intro fuel
    refine ⟨(fun hdk => absurd hdk (by decide)), (fun hdk => absurd hdk (by decide)),
      (fun hdk => absurd hdk (by decide)), ?_, (fun hdk => absurd hdk (by decide))⟩
    intro _ hfuel
    cases fuel with
    | zero => exact absurd hfuel (by omega)
    | succ f =>
      have hdef : parseRun scope (f + 1) .expr t =
          (match parseRun scope f .term t with
           | .error e => .error e
           | .ok (v, r) => parseRun scope f (.exprLoop v) r) := rfl
      have hsubfuel : 4 * t.length + 2 ≤ f := by omega
      rcases (ihterm f).2.1 rfl hsubfuel with ⟨v, hok⟩ | ⟨e, herr, hsem⟩
      · have hlt : m.length < t.length := (derivLen hterm).2 (Or.inr (Or.inl rfl))
        have htailfuel : 4 * m.length + 3 ≤ f := by omega
        rcases (ihtail f).2.2.2.2 rfl htailfuel v with ⟨v2, hok2⟩ | ⟨e2, herr2, hsem2⟩
        · refine Or.inl ⟨v2, ?_⟩
          rw [hdef, hok]
          exact hok2
        · refine Or.inr ⟨e2, ?_, hsem2⟩
          rw [hdef, hok]
          exact herr2
      · refine Or.inr ⟨e, ?_, hsem⟩
        rw [hdef, herr]
  | exprTailStop r hnas =>
    intro fuel
    refine ⟨(fun hdk => absurd hdk (by decide)), (fun hdk => absurd hdk (by decide)),
      (fun hdk => absurd hdk (by decide)), (fun hdk => absurd hdk (by decide)), ?_⟩
    intro _ hfuel acc
    cases fuel with
    | zero => exact absurd hfuel (by omega)
    | succ f =>
      refine Or.inl ⟨acc, ?_⟩
      cases r with
      | nil => rfl
      | cons t ts =>
        cases t with
        | op c =>
          have hcc : ¬(c = '+' ∨ c = '-') := by
            intro hcc
            rcases hcc with h1 | h1 <;> simp [noAddSubHead, h1] at hnas
          have hdef : parseRun scope (f + 1) (.exprLoop acc) (Token.op c :: ts) =
              (if c = '+' ∨ c = '-' then
                match parseRun scope f .term ts with
                | .error e => .error e
                | .ok (rhs, r2) =>
                  match applyIntOp acc c rhs with
                  | .error e => .error e
                  | .ok v2 => parseRun scope f (.exprLoop v2) r2
              else .ok (acc, Token.op c :: ts)) := rfl
          rw [hdef, if_neg hcc]
        | num n => rfl
        | ident s => rfl
        | lparen => rfl
        | rparen => rfl
  | exprTailCons c t m r hc hterm htail ihterm ihtail =>
    intro fuel
    refine ⟨(fun hdk => absurd hdk (by decide)), (fun hdk => absurd hdk (by decide)),
      (fun hdk => absurd hdk (by decide)), (fun hdk => absurd hdk (by decide)), ?_⟩
    intro _ hfuel acc
    cases fuel with
    | zero => exact absurd hfuel (by omega)
    | succ f =>
      have hdef : parseRun scope (f + 1) (.exprLoop acc) (Token.op c :: t) =
          (if c = '+' ∨ c = '-' then
            match parseRun scope f .term t with
            | .error e => .error e
            | .ok (rhs, r2) =>
              match applyIntOp acc c rhs with
              | .error e => .error e
              | .ok v2 => parseRun scope f (.exprLoop v2) r2
          else .ok (acc, Token.op c :: t)) := rfl
      have hsubfuel : 4 * t.length + 2 ≤ f := by
        simp [List.length_cons] at hfuel
        omega
      rcases (ihterm f).2.1 rfl hsubfuel with ⟨rhs, hok⟩ | ⟨e, herr, hsem⟩
      · cases hop : applyIntOp acc c rhs with
        | error e2 =>
          have he2 : e2 = ParseErr.divisionByZero :=
            applyIntOp_err (hc.imp_right fun h1 => Or.inl h1) hop
          subst he2
          refine Or.inr ⟨ParseErr.divisionByZero, ?_, rfl⟩
          rw [hdef, if_pos hc, hok]
          show (match applyIntOp acc c rhs with
              | .error e => (.error e : Except ParseErr (Int × List Token))
              | .ok v2 => parseRun scope f (.exprLoop v2) m) = _
          rw [hop]
        | ok v2 =>
          have hlt : m.length < t.length := (derivLen hterm).2 (Or.inr (Or.inl rfl))
          have htailfuel : 4 * m.length + 3 ≤ f := by
            simp [List.length_cons] at hfuel
            omega
          rcases (ihtail f).2.2.2.2 rfl htailfuel v2 with ⟨v3, hok3⟩ | ⟨e3, herr3, hsem3⟩
          · refine Or.inl ⟨v3, ?_⟩
            rw [hdef, if_pos hc, hok]
            show (match applyIntOp acc c rhs with
                | .error e => (.error e : Except ParseErr (Int × List Token))
                | .ok v2 => parseRun scope f (.exprLoop v2) m) = _
            rw [hop]
            exact hok3
          · refine Or.inr ⟨e3, ?_, hsem3⟩
            rw [hdef, if_pos hc, hok]
            show (match applyIntOp acc c rhs with
                | .error e => (.error e : Except ParseErr (Int × List Token))
                | .ok v2 => parseRun scope f (.exprLoop v2) m) = _
            rw [hop]
            exact herr3
      · refine Or.inr ⟨e, ?_, hsem⟩
        rw [hdef, if_pos hc, herr]

/-- A Bool that is not true is false. -/
theorem bnot_true {b : Bool} (h : ¬ b = true) : b = false := by
  cases b with
  | false => rfl
  | true => exact absurd rfl h

/-- The tokenizer only fails on an invalid character, and that character
is in the unscanned input. -/
theorem tokLoop_err : ∀ (cs : List Char) (run : Option Run) (acc : List Token) (e : ParseErr),
    tokLoop cs run acc = .error e →
    ∃ c, e = ParseErr.invalidChar c ∧ c ∈ cs ∧ invalidExprChar c = true := by
  intro cs
  induction cs with
  | nil => intro run acc e h; cases h
  | cons c cs ih =>
    intro run acc e h
    simp only [tokLoop] at h
    by_cases hd : isDigitChar c = true
    · rw [if_pos hd] at h
      have step : ∀ (run' : Option Run) (acc' : List Token),
          tokLoop cs run' acc' = .error e →
          ∃ c1, e = ParseErr.invalidChar c1 ∧ c1 ∈ c :: cs ∧ invalidExprChar c1 = true := by
        intro run' acc' h'
        obtain ⟨c1, he, hm, hv⟩ := ih run' acc' e h'
        exact ⟨c1, he, List.mem_cons_of_mem _ hm, hv⟩
      cases run with
      | none => exact step _ _ h
      | some r =>
        cases r with
        | num v => exact step _ _ h
        | ident ics => exact step _ _ h
    · rw [if_neg hd] at h
      by_cases hi : isIdentStartChar c = true
      · rw [if_pos hi] at h
        have step : ∀ (run' : Option Run) (acc' : List Token),
            tokLoop cs run' acc' = .error e →
            ∃ c1, e = ParseErr.invalidChar c1 ∧ c1 ∈ c :: cs ∧ invalidExprChar c1 = true := by
          intro run' acc' h'
          obtain ⟨c1, he, hm, hv⟩ := ih run' acc' e h'
          exact ⟨c1, he, List.mem_cons_of_mem _ hm, hv⟩
        cases run with
        | none => exact step _ _ h
        | some r =>
          cases r with
          | num v => exact step _ _ h
          | ident ics => exact step _ _ h
      · rw [if_neg hi] at h
        have h2 : (if isWsChar c then tokLoop cs none (flushRun run ++ acc)
            else if c = '+' ∨ c = '-' ∨ c = '*' ∨ c = '/' then
              tokLoop cs none (.op c :: (flushRun run ++ acc))
            else if c = '(' then tokLoop cs none (.lparen :: (flushRun run ++ acc))
            else if c = ')' then tokLoop cs none (.rparen :: (flushRun run ++ acc))
            else .error (.invalidChar c)) = .error e := h
        have step : ∀ (run' : Option Run) (acc' : List Token),
            tokLoop cs run' acc' = .error e →
            ∃ c1, e = ParseErr.invalidChar c1 ∧ c1 ∈ c :: cs ∧ invalidExprChar c1 = true := by
          intro run' acc' h'
          obtain ⟨c1, he, hm, hv⟩ := ih run' acc' e h'
          exact ⟨c1, he, List.mem_cons_of_mem _ hm, hv⟩
        by_cases hw : isWsChar c = true
        · rw [if_pos hw] at h2
          exact step _ _ h2
        · rw [if_neg hw] at h2
          by_cases hop : c = '+' ∨ c = '-' ∨ c = '*' ∨ c = '/'
          · rw [if_pos hop] at h2
            exact step _ _ h2
          · rw [if_neg hop] at h2
            by_cases hlp : c = '('
            · rw [if_pos hlp] at h2
              exact step _ _ h2
            · rw [if_neg hlp] at h2
              by_cases hrp : c = ')'
              · rw [if_pos hrp] at h2
                exact step _ _ h2
              · rw [if_neg hrp] at h2
                injection h2 with h1
                have hp1 : c ≠ '+' := fun hh => hop (Or.inl hh)
                have hp2 : c ≠ '-' := fun hh => hop (Or.inr (Or.inl hh))
                have hp3 : c ≠ '*' := fun hh => hop (Or.inr (Or.inr (Or.inl hh)))
                have hp4 : c ≠ '/' := fun hh => hop (Or.inr (Or.inr (Or.inr hh)))
                refine ⟨c, h1.symm, List.mem_cons_self _ _, ?_⟩
                simp [invalidExprChar, bnot_true hd, bnot_true hi, bnot_true hw,
                  hp1, hp2, hp3, hp4, hlp, hrp]

/-- A successful scan means every input character is valid. -/
theorem tokLoop_ok_valid : ∀ (cs : List Char) (run : Option Run) (acc : List Token)
    (toks : List Token), tokLoop cs run acc = .ok toks →
    ∀ c ∈ cs, invalidExprChar c = false := by
  intro cs
  induction cs with
  | nil => intro run acc toks h c hc; cases hc
  | cons c0 cs ih =>
    intro run acc toks h c hc
    simp only [tokLoop] at h
    rcases List.mem_cons.mp hc with hc0 | hcs
    · subst hc0
      by_cases hd : isDigitChar c = true
      · simp [invalidExprChar, hd]
      · rw [if_neg hd] at h
        by_cases hi : isIdentStartChar c = true
        · simp [invalidExprChar, hi]
        · rw [if_neg hi] at h
          have h2 : (if isWsChar c then tokLoop cs none (flushRun run ++ acc)
              else if c = '+' ∨ c = '-' ∨ c = '*' ∨ c = '/' then
                tokLoop cs none (.op c :: (flushRun run ++ acc))
              else if c = '(' then tokLoop cs none (.lparen :: (flushRun run ++ acc))
              else if c = ')' then tokLoop cs none (.rparen :: (flushRun run ++ acc))
              else .error (.invalidChar c)) = .ok toks := h
          by_cases hw : isWsChar c = true
          · simp [invalidExprChar, hw]
          · rw [if_neg hw] at h2
            by_cases hop : c = '+' ∨ c = '-' ∨ c = '*' ∨ c = '/'
            · rcases hop with h1 | h1 | h1 | h1 <;> subst h1 <;> rfl
            · rw [if_neg hop] at h2
              by_cases hlp : c = '('
              · subst hlp; rfl
              · rw [if_neg hlp] at h2
                by_cases hrp : c = ')'
                · subst hrp; rfl
                · rw [if_neg hrp] at h2
                  cases h2
    · by_cases hd : isDigitChar c0 = true
      · rw [if_pos hd] at h
        cases run with
        | none => exact ih _ _ _ h c hcs
        | some r =>
          cases r with
          | num v => exact ih _ _ _ h c hcs
          | ident ics => exact ih _ _ _ h c hcs
      · rw [if_neg hd] at h
        by_cases hi : isIdentStartChar c0 = true
        · rw [if_pos hi] at h
          cases run with
          | none => exact ih _ _ _ h c hcs
          | some r =>
            cases r with
            | num v => exact ih _ _ _ h c hcs
            | ident ics => exact ih _ _ _ h c hcs
        · rw [if_neg hi] at h
          have h2 : (if isWsChar c0 then tokLoop cs none (flushRun run ++ acc)
              else if c0 = '+' ∨ c0 = '-' ∨ c0 = '*' ∨ c0 = '/' then
                tokLoop cs none (.op c0 :: (flushRun run ++ acc))
              else if c0 = '(' then tokLoop cs none (.lparen :: (flushRun run ++ acc))
              else if c0 = ')' then tokLoop cs none (.rparen :: (flushRun run ++ acc))
              else .error (.invalidChar c0)) = .ok toks := h
          by_cases hw : isWsChar c0 = true
          · rw [if_pos hw] at h2
            exact ih _ _ _ h2 c hcs
          · rw [if_neg hw] at h2
            by_cases hop : c0 = '+' ∨ c0 = '-' ∨ c0 = '*' ∨ c0 = '/'
            · rw [if_pos hop] at h2
              exact ih _ _ _ h2 c hcs
            · rw [if_neg hop] at h2
              by_cases hlp : c0 = '('
              · rw [if_pos hlp] at h2
                exact ih _ _ _ h2 c hcs
              · rw [if_neg hlp] at h2
                by_cases hrp : c0 = ')'
                · rw [if_pos hrp] at h2
                  exact ih _ _ _ h2 c hcs
                · rw [if_neg hrp] at h2
                  cases h2

/-- A scan that produces no tokens read only whitespace, carried no
pending run, and had no finished tokens. -/
theorem tokLoop_ok_nil : ∀ (cs : List Char) (run : Option Run) (acc : List Token),
    tokLoop cs run acc = .ok [] →
    (∀ c ∈ cs, isWsChar c = true) ∧ flushRun run = [] ∧ acc = [] := by
  intro cs
  induction cs with
  | nil =>
    intro run acc h
    injection h with h1
    have h2 : flushRun run ++ acc = [] := by
      have h3 := congrArg List.reverse h1
      simpa using h3
    rcases List.append_eq_nil.mp h2 with ⟨ha, hb⟩
    exact ⟨fun c hc => absurd hc (List.not_mem_nil c), ha, hb⟩
  | cons c0 cs ih =>
    intro run acc h
    simp only [tokLoop] at h
    by_cases hd : isDigitChar c0 = true
    · rw [if_pos hd] at h
      exfalso
      cases run with
      | none => exact absurd (ih _ _ h).2.1 (by simp [flushRun])
      | some r =>
        cases r with
        | num v => exact absurd (ih _ _ h).2.1 (by simp [flushRun])
        | ident ics => exact absurd (ih _ _ h).2.1 (by simp [flushRun])
    · rw [if_neg hd] at h
      by_cases hi : isIdentStartChar c0 = true
      · rw [if_pos hi] at h
        exfalso
        cases run with
        | none => exact absurd (ih _ _ h).2.1 (by simp [flushRun])
        | some r =>
          cases r with
          | num v => exact absurd (ih _ _ h).2.1 (by simp [flushRun])
          | ident ics => exact absurd (ih _ _ h).2.1 (by simp [flushRun])
      · rw [if_neg hi] at h
        have h2 : (if isWsChar c0 then tokLoop cs none (flushRun run ++ acc)
            else if c0 = '+' ∨ c0 = '-' ∨ c0 = '*' ∨ c0 = '/' then
              tokLoop cs none (.op c0 :: (flushRun run ++ acc))
            else if c0 = '(' then tokLoop cs none (.lparen :: (flushRun run ++ acc))
            else if c0 = ')' then tokLoop cs none (.rparen :: (flushRun run ++ acc))
            else .error (.invalidChar c0)) = .ok [] := h
        by_cases hw : isWsChar c0 = true
        · rw [if_pos hw] at h2
          obtain ⟨hall, _, hacc⟩ := ih _ _ h2
          rcases List.append_eq_nil.mp hacc with ⟨ha, hb⟩
          refine ⟨?_, ha, hb⟩
          intro c hc
          rcases List.mem_cons.mp hc with hc0 | hcs
          · subst hc0; exact hw
          · exact hall c hcs
        · rw [if_neg hw] at h2
          by_cases hop : c0 = '+' ∨ c0 = '-' ∨ c0 = '*' ∨ c0 = '/'
          · rw [if_pos hop] at h2
            exact absurd (ih _ _ h2).2.2 (by simp)
          · rw [if_neg hop] at h2
            by_cases hlp : c0 = '('
            · rw [if_pos hlp] at h2
              exact absurd (ih _ _ h2).2.2 (by simp)
            · rw [if_neg hlp] at h2
              by_cases hrp : c0 = ')'
              · rw [if_pos hrp] at h2
                exact absurd (ih _ _ h2).2.2 (by simp)
              · rw [if_neg hrp] at h2
                cases h2

/-- Scanning only whitespace from the initial state yields no tokens. -/
theorem tokLoop_all_ws : ∀ (cs : List Char), (∀ c ∈ cs, isWsChar c = true) →
    tokLoop cs none [] = .ok [] := by
  intro cs
  induction cs with
  | nil => intro _; rfl
  | cons c0 cs ih =>
    intro hall
    have hw : isWsChar c0 = true := hall c0 (List.mem_cons_self _ _)
    have hrest : ∀ c ∈ cs, isWsChar c = true := fun c hc => hall c (List.mem_cons_of_mem _ hc)
    have hws : c0 = ' ' ∨ c0 = '\t' ∨ c0 = '\n' ∨ c0 = '\r' := by
      simpa [isWsChar] using hw
    rcases hws with h1 | h1 | h1 | h1 <;> subst h1 <;>
      exact (show tokLoop _ none [] = tokLoop cs none [] from rfl).trans (ih hrest)

/-- A parse error that is not value-dependent refutes any complete
derivation of the token list. -/
theorem syntacticParseError (scope : Scope) {toks : List Token} {ep : ParseErr}
    (hp : parseRun scope (parserFuel toks) .expr toks = .error ep)
    (hsem : isSemErrB ep = false) :
    ¬ Deriv DK.expr toks [] := by
  intro hD
  have hres := (deriv_parse scope hD (parserFuel toks)).2.2.2.1 rfl
    (by simp only [parserFuel]; omega)
  rcases hres with ⟨v, hok⟩ | ⟨e', herr', hsem'⟩
  · rw [hp] at hok
    cases hok
  · rw [hp] at herr'
    injection herr' with h1
    subst h1
    rw [hsem] at hsem'
    cases hsem'

/-- A successful evaluation means the parser consumed the whole token
list. -/
theorem eval_ok_parse (scope : Scope) {expr : String} {toks : List Token} {n : Int}
    (htok : tokenizeExpression expr = .ok toks)
    (hev : evaluateIntegerExpression expr scope = .ok n) :
    parseRun scope (parserFuel toks) .expr toks = .ok (n, []) := by
  have hd : evaluateIntegerExpression expr scope = (match tokenizeExpression expr with
    | .error e => .error e
    | .ok toks => match parseRun scope (parserFuel toks) .expr toks with
      | .error e => .error e
      | .ok (v, []) => .ok v
      | .ok (_, _ :: _) => .error .trailingTokens) := rfl
  rw [hd, htok] at hev
  have hev2 : (match parseRun scope (parserFuel toks) .expr toks with
      | .error e => (.error e : Except ParseErr Int)
      | .ok (v, []) => .ok v
      | .ok (_, _ :: _) => .error .trailingTokens) = .ok n := hev
  cases hp : parseRun scope (parserFuel toks) .expr toks with
  | error e =>
    rw [hp] at hev2
    cases hev2
  | ok vr =>
    obtain ⟨v, r⟩ := vr
    rw [hp] at hev2
    cases r with
    | nil =>
      have hh : (Except.ok v : Except ParseErr Int) = .ok n := hev2
      injection hh with h1
      subst h1
      rfl
    | cons r0 rs =>
      have hh : (Except.error ParseErr.trailingTokens : Except ParseErr Int) = .ok n := hev2
      cases hh

/-- C8 counterexample: evaluating "*2" fails with an unexpected-token
error although the expression is not empty, has no invalid character, has
balanced parentheses, is not a complete expression followed by trailing
tokens, references no variable, and does not divide by zero — so the
claim's list of failure conditions does not cover this failure. -/
theorem c8_failure_conditions_counterexample :
    evaluateIntegerExpression "*2" [] = .error .unexpectedToken ∧
      ¬ specEvalFailureCondition "*2" [] := by
  refine ⟨by decide, ?_⟩
  intro h
  rcases h with h1 | h2 | h3 | h4 | h5 | h6
  · exact absurd h1 (by decide)
  · obtain ⟨c, hc, hv⟩ := h2
    have hval : ∀ c ∈ "*2".data, invalidExprChar c = false := by decide
    rw [hval c hc] at hv
    cases hv
  · obtain ⟨toks, ht, hb⟩ := h3
    have htk : tokenizeExpression "*2" = .ok [Token.op '*', Token.num 2] := by decide
    injection htk.symm.trans ht with htoks
    subst htoks
    exact absurd hb (by decide)
  · obtain ⟨toks, rest, ht, hne, hD⟩ := h4
    have htk : tokenizeExpression "*2" = .ok [Token.op '*', Token.num 2] := by decide
    injection htk.symm.trans ht with htoks
    subst htoks
    cases hD with
    | expr t m r hterm htail =>
      cases hterm with
      | term t2 m2 r2 hfac htail2 =>
        cases hfac with
        | sign c t3 r3 hc hsub => rcases hc with hc1 | hc1 <;> exact absurd hc1 (by decide)
  · obtain ⟨toks, v, ht, hm, hl⟩ := h5
    have htk : tokenizeExpression "*2" = .ok [Token.op '*', Token.num 2] := by decide
    injection htk.symm.trans ht with htoks
    subst htoks
    simp at hm
  · have hev : evaluateIntegerExpression "*2" [] = .error .unexpectedToken := by decide
    injection hev.symm.trans h6 with h7
    cases h7

/-- C8 (amended): the integer expression evaluator fails exactly when the
expression is empty (all whitespace), contains an invalid character,
tokenizes to a sequence the precedence grammar cannot derive as one
complete expression (which subsumes unmatched parentheses and trailing
tokens after a complete expression), references a variable that is
unbound or bound to a non-numeric string, or divides by zero; on every
other input it returns an integer. -/
theorem c8_evaluator_failure_amended :
    ∀ (expr : String) (scope : Scope),
      (∃ e, evaluateIntegerExpression expr scope = .error e) ↔
        amendedFailureCondition expr scope := by
  intro expr scope
  constructor
  · rintro ⟨e, he⟩
    cases htk : tokLoop expr.data none [] with
    | error e0 =>
      obtain ⟨c, hec, hcm, hcv⟩ := tokLoop_err _ _ _ _ htk
      exact Or.inr (Or.inl ⟨c, hcm, hcv⟩)
    | ok toks0 =>
      cases toks0 with
      | nil =>
        have hall := (tokLoop_ok_nil _ _ _ htk).1
        exact Or.inl (List.all_eq_true.mpr hall)
      | cons t0 ts0 =>
        have htok : tokenizeExpression expr = .ok (t0 :: ts0) := by
          have hd : tokenizeExpression expr = (match tokLoop expr.data none [] with
            | .error e => .error e
            | .ok [] => .error .emptyExpression
            | .ok toks => .ok toks) := rfl
          rw [hd, htk]
        have hed : evaluateIntegerExpression expr scope =
            (match parseRun scope (parserFuel (t0 :: ts0)) .expr (t0 :: ts0) with
             | .error e => .error e
             | .ok (v, []) => .ok v
             | .ok (_, _ :: _) => .error .trailingTokens) := by
          have hd : evaluateIntegerExpression expr scope =
              (match tokenizeExpression expr with
               | .error e => .error e
               | .ok toks => match parseRun scope (parserFuel toks) .expr toks with
                 | .error e => .error e
                 | .ok (v, []) => .ok v
                 | .ok (_, _ :: _) => .error .trailingTokens) := rfl
          rw [hd, htok]
        rw [hed] at he
        cases hp : parseRun scope (parserFuel (t0 :: ts0)) .expr (t0 :: ts0) with
        | error ep =>
          rw [hp] at he
          have hh : (Except.error ep : Except ParseErr Int) = .error e := he
          injection hh with h1
          subst h1
          obtain ⟨a1, a2, a3, a4⟩ := parseRun_err scope _ _ _ _ hp
          cases ep with
          | unknownVar w =>
            obtain ⟨hm, hl⟩ := a1 w rfl
            refine Or.inr (Or.inr (Or.inr (Or.inl ⟨t0 :: ts0, w, htok, hm, ?_⟩)))
            simp [lookupNumeric, hl]
          | nonNumericVar w =>
            obtain ⟨hm, s, hl, hns⟩ := a2 w rfl
            refine Or.inr (Or.inr (Or.inr (Or.inl ⟨t0 :: ts0, w, htok, hm, ?_⟩)))
            simp [lookupNumeric, hl, hns]
          | divisionByZero =>
            refine Or.inr (Or.inr (Or.inr (Or.inr ?_)))
            rw [hed, hp]
          | outOfFuel =>
            exact absurd rfl (a4 (by simp only [pkindNeed, parserFuel]; omega))
          | badOperator => exact absurd rfl a3
          | emptyExpression =>
            exact Or.inr (Or.inr (Or.inl ⟨t0 :: ts0, htok,
              syntacticParseError scope hp (by decide)⟩))
          | invalidChar c =>
            exact Or.inr (Or.inr (Or.inl ⟨t0 :: ts0, htok,
              syntacticParseError scope hp rfl⟩))
          | unexpectedEnd =>
            exact Or.inr (Or.inr (Or.inl ⟨t0 :: ts0, htok,
              syntacticParseError scope hp (by decide)⟩))
          | unexpectedToken =>
            exact Or.inr (Or.inr (Or.inl ⟨t0 :: ts0, htok,
              syntacticParseError scope hp (by decide)⟩))
          | missingClosingParen =>
            exact Or.inr (Or.inr (Or.inl ⟨t0 :: ts0, htok,
              syntacticParseError scope hp (by decide)⟩))
          | trailingTokens =>
            exact Or.inr (Or.inr (Or.inl ⟨t0 :: ts0, htok,
              syntacticParseError scope hp (by decide)⟩))
        | ok vr =>
          obtain ⟨v, r⟩ := vr
          rw [hp] at he
          cases r with
          | nil =>
            have hh : (Except.ok v : Except ParseErr Int) = .error e := he
            cases hh
          | cons r0 rs =>
            refine Or.inr (Or.inr (Or.inl ⟨t0 :: ts0, htok, ?_⟩))
            intro hD
            have hres := (deriv_parse scope hD (parserFuel (t0 :: ts0))).2.2.2.1 rfl
              (by simp only [parserFuel]; omega)
            rcases hres with ⟨v2, hok2⟩ | ⟨e', herr', hsem'⟩
            · rw [hp] at hok2
              injection hok2 with h1
              exact absurd (congrArg Prod.snd h1) (by simp)
            · rw [hp] at herr'
              cases herr'
  · intro hcond
    rcases hcond with hall | hinv | hnd | hvar | hdvz
    · refine ⟨ParseErr.emptyExpression, ?_⟩
      have h1 : tokLoop expr.data none [] = .ok [] :=
        tokLoop_all_ws _ (List.all_eq_true.mp hall)
      have htok : tokenizeExpression expr = .error .emptyExpression := by
        have hd : tokenizeExpression expr = (match tokLoop expr.data none [] with
          | .error e => .error e
          | .ok [] => .error .emptyExpression
          | .ok toks => .ok toks) := rfl
        rw [hd, h1]
      have hd2 : evaluateIntegerExpression expr scope =
          (match tokenizeExpression expr with
           | .error e => .error e
           | .ok toks => match parseRun scope (parserFuel toks) .expr toks with
             | .error e => .error e
             | .ok (v, []) => .ok v
             | .ok (_, _ :: _) => .error .trailingTokens) := rfl
      rw [hd2, htok]
    · obtain ⟨c, hcm, hcv⟩ := hinv
      cases htk : tokLoop expr.data none [] with
      | error e0 =>
        refine ⟨e0, ?_⟩
        have htok : tokenizeExpression expr = .error e0 := by
          have hd : tokenizeExpression expr = (match tokLoop expr.data none [] with
            | .error e => .error e
            | .ok [] => .error .emptyExpression
            | .ok toks => .ok toks) := rfl
          rw [hd, htk]
        have hd2 : evaluateIntegerExpression expr scope =
            (match tokenizeExpression expr with
             | .error e => .error e
             | .ok toks => match parseRun scope (parserFuel toks) .expr toks with
               | .error e => .error e
               | .ok (v, []) => .ok v
               | .ok (_, _ :: _) => .error .trailingTokens) := rfl
        rw [hd2, htok]
      | ok toks0 =>
        have := tokLoop_ok_valid _ _ _ _ htk c hcm
        rw [this] at hcv
        cases hcv
    · obtain ⟨toks, htok, hD⟩ := hnd
      cases hev : evaluateIntegerExpression expr scope with
      | error e => exact ⟨e, rfl⟩
      | ok n =>
        exfalso
        have hp := eval_ok_parse scope htok hev
        exact hD ((parseRun_sound scope (parserFuel toks) toks).2.2.2.1 n [] hp).1
    · obtain ⟨toks, v, htok, hm, hl⟩ := hvar
      cases hev : evaluateIntegerExpression expr scope with
      | error e => exact ⟨e, rfl⟩
      | ok n =>
        exfalso
        have hp := eval_ok_parse scope htok hev
        obtain ⟨hD', pre, hne, hsplit, hgood⟩ :=
          (parseRun_sound scope (parserFuel toks) toks).2.2.2.1 n [] hp
        have hpre : pre = toks := by simpa using hsplit.symm
        rw [← hpre] at hm
        exact hgood v hm hl
    · exact ⟨ParseErr.divisionByZero, hdvz⟩
